import Mathlib

/-
  A verification development for the Hungarian-algorithm assignment solver
  (class Hungarian, files hungarian.h in its MultiArray and boost variants,
  together with multiarray.h).

  The solver state is embedded shallowly: the n-by-n working arrays become
  functions out of Fin n, the double entries become exact rationals, the
  UNASSIGNED sentinel (max uint32) becomes Option.none, and the POSITIVE_INFINITY
  sentinel used to seed minimum scans becomes the none case of an Option
  accumulator.  The two unbounded while loops (the phase loop of execute_phase
  and the augmenting-path walk) are embedded with an explicit fuel argument;
  theorems below show the chosen fuel always suffices, so the embedded
  functions never return none on the stated inputs.

  One point of the source is modelled with care: the one-dimensional
  MultiArray constructor (multiarray.h, MultiArray<T,1>::MultiArray) allocates
  with new T[extent] and does NOT zero the buffer, so every 1-D scratch array
  of the solver starts with indeterminate heap contents.  All of them except
  label_by_worker_ are fully written before being read; label_by_worker_ is
  read (greedy_match, initialize_phase, execute_phase, update_labeling) but is
  never written before first use.  The embedding therefore takes the initial
  contents of the 1-D scratch arrays as an explicit ScratchInit parameter.
  The boost variant (boost::multi_array value-initializes its elements)
  corresponds to ScratchInit.zero.
-/

namespace Hungarian

/-- One comparison of the minimum scan pattern of the source: an accumulator
seeded with POSITIVE_INFINITY (modelled as none), replaced whenever a strictly
smaller element is seen. -/
def scanMinStep (acc : Option ℚ) (x : ℚ) : Option ℚ :=
  match acc with
  | none => some x
  | some m => if x < m then some x else some m

/-- The minimum scan over a list of values. -/
def scanMin (l : List ℚ) : Option ℚ :=
  l.foldl scanMinStep none

/-- The solver state: the n-by-n working cost matrix and the eight auxiliary
length-n arrays of class Hungarian.  UNASSIGNED is modelled as none. -/
structure State (n : ℕ) where
  cost : Fin n → Fin n → ℚ
  labelByWorker : Fin n → ℚ
  labelByJob : Fin n → ℚ
  minSlackByJob : Fin n → ℚ
  minSlackWorkerByJob : Fin n → Fin n
  matchJobByWorker : Fin n → Option (Fin n)
  matchWorkerByJob : Fin n → Option (Fin n)
  parentWorkerByCommittedJob : Fin n → Option (Fin n)
  committedWorkers : Fin n → Bool

/-- The indeterminate initial contents of the 1-D scratch arrays: the
MultiArray<T,1> constructor allocates with new T[extent] without zeroing,
so the constructor of Hungarian leaves these arrays with arbitrary heap
contents (the boost variant zero-fills; that is ScratchInit.zero). -/
structure ScratchInit (n : ℕ) where
  labelByWorker : Fin n → ℚ
  labelByJob : Fin n → ℚ
  minSlackByJob : Fin n → ℚ
  minSlackWorkerByJob : Fin n → Fin n
  parentWorkerByCommittedJob : Fin n → Option (Fin n)
  committedWorkers : Fin n → Bool

/-- All-zero scratch contents: the initial state of the boost variant, whose
boost::multi_array value-initializes every element. -/
def ScratchInit.zero (n : ℕ) : ScratchInit n :=
  ⟨fun _ => 0, fun _ => 0, fun _ => 0, fun j => j, fun _ => none, fun _ => false⟩

/-- The Hungarian constructor: dim = max(rows, cols); the caller's rows-by-cols
matrix is copied into the top left block of the dim-by-dim working matrix and
the rest is zero-filled; both matching arrays are set to UNASSIGNED.  The
remaining 1-D arrays keep their indeterminate initial contents g. -/
def mkState (rows cols : ℕ) (c : Fin rows → Fin cols → ℚ)
    (g : ScratchInit (max rows cols)) : State (max rows cols) where
  cost := fun w j =>
    if hw : w.val < rows then
      if hj : j.val < cols then c ⟨w.val, hw⟩ ⟨j.val, hj⟩ else 0
    else 0
  labelByWorker := g.labelByWorker
  labelByJob := g.labelByJob
  minSlackByJob := g.minSlackByJob
  minSlackWorkerByJob := g.minSlackWorkerByJob
  matchJobByWorker := fun _ => none
  matchWorkerByJob := fun _ => none
  parentWorkerByCommittedJob := g.parentWorkerByCommittedJob
  committedWorkers := g.committedWorkers

variable {n : ℕ}

/-- The slack of an edge: cost[w][j] - label_by_worker[w] - label_by_job[j]. -/
def edgeSlack (s : State n) (w j : Fin n) : ℚ :=
  s.cost w j - s.labelByWorker w - s.labelByJob j

/-- Row w of the working matrix as a list, in job order. -/
def rowList (s : State n) (w : Fin n) : List ℚ :=
  (List.finRange n).map (fun j => s.cost w j)

/-- One iteration of the row-reduction loop of reduce(): compute the minimum of
row w, then subtract it from every entry of the row.  The getD default is
never reached: a row of a Fin n indexed matrix is nonempty. -/
def reduceRowsStep (t : State n) (w : Fin n) : State n :=
  let m := (scanMin (rowList t w)).getD 0
  { t with cost := Function.update t.cost w (fun j => t.cost w j - m) }

/-- The row phase of reduce(). -/
def reduceRows (s : State n) : State n :=
  (List.finRange n).foldl reduceRowsStep s

/-- The column-minimum array pattern of the source (used both by the column
phase of reduce() and by compute_initial_feasible_solution): a j-indexed
accumulator seeded with POSITIVE_INFINITY, refined while scanning workers in
the outer loop. -/
def colMins (cost : Fin n → Fin n → ℚ) : Fin n → Option ℚ :=
  (List.finRange n).foldl
    (fun acc w => fun j => scanMinStep (acc j) (cost w j)) (fun _ => none)

/-- The column phase of reduce(): compute the column minima of the current
matrix into an array, then subtract min[j] from every entry of column j.
The source subtracts in a second double loop over the fixed min array, so the
subtraction is pointwise; the getD default is never reached since every
column of a Fin n indexed matrix is nonempty. -/
def reduceCols (s : State n) : State n :=
  let m := colMins s.cost
  { s with cost := fun w j => s.cost w j - (m j).getD 0 }

/-- reduce(): subtract from every row its minimum, then from every column its
minimum. -/
def reduce (s : State n) : State n :=
  reduceCols (reduceRows s)

/-- compute_initial_feasible_solution(): label_by_job[j] starts at
POSITIVE_INFINITY and the worker-outer double loop lowers it to the minimum
cost in column j; this is the same accumulator pattern as reduce()'s column
phase, shared here as colMins (the getD default is never reached for a
nonempty column).  label_by_worker is NOT written (see the file comment). -/
def computeInitialFeasibleSolution (s : State n) : State n :=
  { s with labelByJob := fun j => (colMins s.cost j).getD 0 }

/-- match(w, j): record a matching between worker w and job j in both
directions. -/
def recordMatch (w j : Fin n) (s : State n) : State n :=
  { s with
    matchJobByWorker := Function.update s.matchJobByWorker w (some j)
    matchWorkerByJob := Function.update s.matchWorkerByJob j (some w) }

/-- The body of greedy_match() for one (w, j) pair: match whenever both are
unmatched and the edge has zero slack. -/
def greedyStep (w : Fin n) (t2 : State n) (j : Fin n) : State n :=
  if t2.matchJobByWorker w = none ∧ t2.matchWorkerByJob j = none ∧
      edgeSlack t2 w j = 0 then
    recordMatch w j t2
  else t2

/-- greedy_match(): scan all (w, j) pairs in order and match whenever both are
unmatched and the edge has zero slack. -/
def greedyMatch (s : State n) : State n :=
  (List.finRange n).foldl (fun t w =>
    (List.finRange n).foldl (greedyStep w) t) s

/-- fetch_unmatched_worker(): the first worker with no job, none if all are
matched (the source returns dim there, which exits the main loop). -/
def fetchUnmatchedWorker (s : State n) : Option (Fin n) :=
  (List.finRange n).find? (fun w => (s.matchJobByWorker w).isNone)

/-- initialize_phase(w): clear the committed workers (memset false) and
committed jobs, commit the root w, and seed the slack arrays against w. -/
def initializePhase (w : Fin n) (s : State n) : State n :=
  { s with
    committedWorkers := Function.update (fun _ => false) w true
    parentWorkerByCommittedJob := fun _ => none
    minSlackByJob := fun j => edgeSlack s w j
    minSlackWorkerByJob := fun _ => w }

/-- update_labeling(slack): add slack to every committed worker's label;
subtract it from every committed job's label, and from the recorded minimum
slack of every uncommitted job. -/
def updateLabeling (v : ℚ) (s : State n) : State n :=
  { s with
    labelByWorker := fun w =>
      if s.committedWorkers w then s.labelByWorker w + v else s.labelByWorker w
    labelByJob := fun j =>
      if s.parentWorkerByCommittedJob j ≠ none then s.labelByJob j - v
      else s.labelByJob j
    minSlackByJob := fun j =>
      if s.parentWorkerByCommittedJob j ≠ none then s.minSlackByJob j
      else s.minSlackByJob j - v }

/-- The minimum-slack scan at the top of the execute_phase loop: over
uncommitted jobs, track the job of strictly smallest recorded slack together
with its achieving worker.  The initial (UNASSIGNED, UNASSIGNED, infinity)
triple is modelled as none. -/
def scanMinSlackStep (s : State n) (acc : Option (Fin n × Fin n × ℚ))
    (j : Fin n) : Option (Fin n × Fin n × ℚ) :=
  if s.parentWorkerByCommittedJob j = none then
    match acc with
    | none => some (s.minSlackWorkerByJob j, j, s.minSlackByJob j)
    | some (w0, j0, v0) =>
      if s.minSlackByJob j < v0 then
        some (s.minSlackWorkerByJob j, j, s.minSlackByJob j)
      else some (w0, j0, v0)
  else acc

/-- The minimum-slack scan loop. -/
def scanMinSlack (s : State n) : Option (Fin n × Fin n × ℚ) :=
  (List.finRange n).foldl (scanMinSlackStep s) none

/-- parent_worker_by_committed_job[j] := w (committing job j). -/
def setParent (j w : Fin n) (s : State n) : State n :=
  { s with
    parentWorkerByCommittedJob :=
      Function.update s.parentWorkerByCommittedJob j (some w) }

/-- committed_workers[w] := true. -/
def commitWorker (w : Fin n) (s : State n) : State n :=
  { s with committedWorkers := Function.update s.committedWorkers w true }

/-- The slack refresh after committing a new worker: for every uncommitted
job, take the pointwise minimum of its recorded slack and its slack against
the newly committed worker. -/
def updateSlackStep (worker : Fin n) (t : State n) (j : Fin n) : State n :=
  if t.parentWorkerByCommittedJob j = none then
    if edgeSlack t worker j < t.minSlackByJob j then
      { t with
        minSlackByJob := Function.update t.minSlackByJob j (edgeSlack t worker j)
        minSlackWorkerByJob := Function.update t.minSlackWorkerByJob j worker }
    else t
  else t

/-- The slack refresh loop after committing a new worker. -/
def updateSlacksFor (worker : Fin n) (s : State n) : State n :=
  (List.finRange n).foldl (updateSlackStep worker) s

/-- One step of the augmenting-path walk of execute_phase: read the committing
worker of the current job (none would mean indexing with UNASSIGNED, an error),
save its current job, record the new match, and either stop (the worker was
unmatched: the walk reached the phase root) or continue at the saved job. -/
def walkStep (s : State n) (job : Fin n) : Option ((State n) ⊕ (State n × Fin n)) :=
  match s.parentWorkerByCommittedJob job with
  | none => none
  | some w =>
    let t := s.matchJobByWorker w
    let s1 := recordMatch w job s
    match t with
    | none => some (Sum.inl s1)
    | some j2 => some (Sum.inr (s1, j2))

/-- The augmenting-path walk, fuelled.  The source runs it as while(true);
the development proves fuel n+1 always suffices. -/
def walkAux : ℕ → State n → Fin n → Option (State n)
  | 0, _, _ => none
  | fuel + 1, s, job =>
    match walkStep s job with
    | none => none
    | some (Sum.inl s1) => some s1
    | some (Sum.inr (s1, j2)) => walkAux fuel s1 j2

/-- The while(true) loop of execute_phase, fuelled: scan for the uncommitted
job of minimum slack (none would mean the scan left min_slack_job at
UNASSIGNED, an error), raise the labels when that slack is positive, commit
the job, and either augment along the parent chain (job unmatched) or commit
its matched worker, refresh the slacks and continue. -/
def phaseLoop : ℕ → State n → Option (State n)
  | 0, _ => none
  | fuel + 1, s =>
    match scanMinSlack s with
    | none => none
    | some (minSlackWorker0, minSlackJob0, v) =>
      let s1 := if 0 < v then updateLabeling v s else s
      let s2 := setParent minSlackJob0 minSlackWorker0 s1
      match s2.matchWorkerByJob minSlackJob0 with
      | none => walkAux (n + 1) s2 minSlackJob0
      | some worker => phaseLoop fuel (updateSlacksFor worker (commitWorker worker s2))

/-- execute_phase(), with the fuel n+1 shown sufficient below. -/
def executePhase (s : State n) : Option (State n) :=
  phaseLoop (n + 1) s

/-- The main loop of execute(): while an unmatched worker exists, run a phase
rooted at the first one.  Fuelled; fuel n+1 is shown sufficient below. -/
def mainLoop : ℕ → State n → Option (State n)
  | 0, _ => none
  | fuel + 1, s =>
    match fetchUnmatchedWorker s with
    | none => some s
    | some w =>
      match executePhase (initializePhase w s) with
      | none => none
      | some s1 => mainLoop fuel s1

/-- execute(): reduce, compute the initial labeling, greedy match, run phases
until every worker of the square matrix is matched, then project the first
rows entries of match_job_by_worker, mapping any job index >= cols (including
UNASSIGNED itself) to UNASSIGNED. -/
def execute (rows cols : ℕ) (c : Fin rows → Fin cols → ℚ)
    (g : ScratchInit (max rows cols)) : Option (List (Option ℕ)) :=
  let s0 := greedyMatch (computeInitialFeasibleSolution (reduce (mkState rows cols c g)))
  (mainLoop (max rows cols + 1) s0).map (fun s =>
    (List.finRange rows).map (fun w =>
      match s.matchJobByWorker (Fin.castLE (Nat.le_max_left rows cols) w) with
      | none => none
      | some j => if j.val < cols then some j.val else none))

/-- The mutual-inverse property of the two matching arrays (a partial
bijection between workers and jobs). -/
def MutualInv (s : State n) : Prop :=
  ∀ w j, s.matchJobByWorker w = some j ↔ s.matchWorkerByJob j = some w

instance (s : State n) : Decidable (MutualInv s) := by
  unfold MutualInv; infer_instance

/-- The set of matched workers. -/
def matchedWorkers (s : State n) : Finset (Fin n) :=
  Finset.univ.filter (fun w => s.matchJobByWorker w ≠ none)

/-- Total cost of a projected result list against a cost function on raw
indices, used to compare the returned assignment with alternatives. -/
def listCost (c : ℕ → ℕ → ℚ) : ℕ → List (Option ℕ) → ℚ
  | _, [] => 0
  | w, none :: rest => listCost c (w + 1) rest
  | w, some j :: rest => c w j + listCost c (w + 1) rest

/-- A result list is a valid assignment for cols jobs when its assigned job
indices are pairwise distinct, all below cols, and exactly
min(length, cols) workers are assigned. -/
def OkAssignment (cols : ℕ) (R : List (Option ℕ)) : Prop :=
  (R.filterMap id).Nodup ∧ (∀ j ∈ R.filterMap id, j < cols) ∧
    (R.filterMap id).length = min R.length cols

/-! ### Generic fold helpers -/

theorem foldl_preserve {α β : Type _} (P : α → Prop) (f : α → β → α)
    (h : ∀ a b, P a → P (f a b)) :
    ∀ (l : List β) (a : α), P a → P (l.foldl f a) := by
  intro l
  induction l with
  | nil => intro a ha; simpa using ha
  | cons x xs ih => intro a ha; exact ih (f a x) (h a x ha)

theorem foldl_fun_apply {β ι γ : Type _} (step : γ → β → ι → γ) (j : ι) :
    ∀ (l : List β) (F0 : ι → γ),
      (l.foldl (fun acc w => fun i => step (acc i) w i) F0) j =
        l.foldl (fun c w => step c w j) (F0 j) := by
  intro l
  induction l with
  | nil => intro F0; rfl
  | cons x xs ih => intro F0; exact ih _

/-! ### The minimum scan -/

theorem scanMin_go (l : List ℚ) :
    ∀ m : ℚ, ∃ m2, l.foldl scanMinStep (some m) = some m2 ∧
      m2 ≤ m ∧ (m2 = m ∨ m2 ∈ l) ∧ ∀ x ∈ l, m2 ≤ x := by
  induction l with
  | nil => intro m; exact ⟨m, rfl, le_refl m, Or.inl rfl, by simp⟩
  | cons x xs ih =>
    intro m
    by_cases hx : x < m
    · obtain ⟨m2, h1, h2, h3, h4⟩ := ih x
      refine ⟨m2, ?_, le_trans h2 (le_of_lt hx), ?_, ?_⟩
      · simpa [scanMinStep, hx] using h1
      · rcases h3 with h | h
        · exact Or.inr (by simp [h])
        · exact Or.inr (by simp [h])
      · intro y hy
        rcases List.mem_cons.mp hy with h | h
        · exact h ▸ h2
        · exact h4 y h
    · obtain ⟨m2, h1, h2, h3, h4⟩ := ih m
      refine ⟨m2, ?_, h2, ?_, ?_⟩
      · simpa [scanMinStep, hx] using h1
      · rcases h3 with h | h
        · exact Or.inl h
        · exact Or.inr (by simp [h])
      · intro y hy
        rcases List.mem_cons.mp hy with h | h
        · exact h ▸ le_trans h2 (not_lt.mp hx)
        · exact h4 y h

theorem scanMin_spec (l : List ℚ) (hl : l ≠ []) :
    ∃ m, scanMin l = some m ∧ m ∈ l ∧ ∀ x ∈ l, m ≤ x := by
  match l with
  | [] => exact absurd rfl hl
  | x :: xs =>
    obtain ⟨m, h1, h2, h3, h4⟩ := scanMin_go xs x
    refine ⟨m, ?_, ?_, ?_⟩
    · simpa [scanMin, scanMinStep] using h1
    · rcases h3 with h | h
      · simp [h]
      · simp [h]
    · intro y hy
      rcases List.mem_cons.mp hy with h | h
      · exact h ▸ h2
      · exact h4 y h

theorem colMins_apply (cost : Fin n → Fin n → ℚ) (j : Fin n) :
    colMins cost j = scanMin ((List.finRange n).map (fun w => cost w j)) := by
  unfold colMins scanMin
  rw [List.foldl_map]
  exact foldl_fun_apply (fun c w i => scanMinStep c (cost w i)) j (List.finRange n) _

/-! ### Field bookkeeping for the reduction phase -/

theorem reduceRowsStep_cost_other (t : State n) (x w : Fin n) (h : w ≠ x) :
    (reduceRowsStep t x).cost w = t.cost w := by
  simp [reduceRowsStep, Function.update_noteq h]

theorem reduceRowsStep_cost_self (t : State n) (x : Fin n) :
    (reduceRowsStep t x).cost x =
      fun j => t.cost x j - (scanMin (rowList t x)).getD 0 := by
  simp [reduceRowsStep]

theorem rowList_congr (t1 t2 : State n) (w : Fin n) (h : t1.cost w = t2.cost w) :
    rowList t1 w = rowList t2 w := by
  unfold rowList
  exact List.map_congr_left (fun j _ => by rw [h])

theorem reduceRows_cost_go (l : List (Fin n)) (hl : l.Nodup) :
    ∀ (t : State n) (w : Fin n),
      (l.foldl reduceRowsStep t).cost w =
        if w ∈ l then
          (fun j => t.cost w j - (scanMin (rowList t w)).getD 0)
        else t.cost w := by
  induction l with
  | nil => intro t w; simp
  | cons x xs ih =>
    intro t w
    have hx : x ∉ xs := (List.nodup_cons.mp hl).1
    have hxs : xs.Nodup := (List.nodup_cons.mp hl).2
    rw [List.foldl_cons, ih hxs]
    by_cases hwxs : w ∈ xs
    · have hwx : w ≠ x := fun h => hx (h ▸ hwxs)
      have hc : (reduceRowsStep t x).cost w = t.cost w :=
        reduceRowsStep_cost_other t x w hwx
      have hr : rowList (reduceRowsStep t x) w = rowList t w :=
        rowList_congr _ _ w hc
      simp [hwxs, List.mem_cons, hc, hr]
    · by_cases hwx : w = x
      · subst hwx
        have : (reduceRowsStep t w).cost w =
            fun j => t.cost w j - (scanMin (rowList t w)).getD 0 :=
          reduceRowsStep_cost_self t w
        simp [hwxs, this]
      · have hc : (reduceRowsStep t x).cost w = t.cost w :=
          reduceRowsStep_cost_other t x w hwx
        simp [hwxs, List.mem_cons, hwx, hc]

theorem reduceRows_cost (s : State n) (w : Fin n) :
    (reduceRows s).cost w = fun j => s.cost w j - (scanMin (rowList s w)).getD 0 := by
  unfold reduceRows
  rw [reduceRows_cost_go (List.finRange n) (List.nodup_finRange n) s w]
  simp [List.mem_finRange]

/-- C9 helper: after the row phase, every entry is the original minus its row
minimum, hence nonnegative, and each row attains zero. -/
theorem reduceRows_row_facts (s : State n) (w : Fin n) :
    (∀ j, 0 ≤ (reduceRows s).cost w j) ∧ (∃ j, (reduceRows s).cost w j = 0) := by
  have hne : rowList s w ≠ [] := by
    have : s.cost w w ∈ rowList s w := List.mem_map_of_mem _ (List.mem_finRange w)
    exact List.ne_nil_of_mem this
  obtain ⟨m, hm, hmem, hle⟩ := scanMin_spec (rowList s w) hne
  constructor
  · intro j
    rw [reduceRows_cost s w]
    have : m ≤ s.cost w j := hle _ (List.mem_map_of_mem _ (List.mem_finRange j))
    simp [hm]
    linarith
  · obtain ⟨j0, _, hj0⟩ := List.mem_map.mp hmem
    refine ⟨j0, ?_⟩
    rw [reduceRows_cost s w]
    simp [hm, hj0]

/-- The column list of the working matrix. -/
def colList (s : State n) (j : Fin n) : List ℚ :=
  (List.finRange n).map (fun w => s.cost w j)

theorem reduceCols_cost (s : State n) (w j : Fin n) :
    (reduceCols s).cost w j = s.cost w j - (scanMin (colList s j)).getD 0 := by
  unfold reduceCols colList
  simp [colMins_apply]

/-- C9 (implicit claim on reduce()): after reduce() returns, every entry of
the n-by-n working matrix is nonnegative and every row and every column
contains a zero.  Stated for an arbitrary solver state, in particular for the
constructor state reduce() is called on inside execute(). -/
theorem c9_reduce_nonneg_row_col_zeros (s : State n) :
    (∀ w j, 0 ≤ (reduce s).cost w j) ∧
      (∀ w, ∃ j, (reduce s).cost w j = 0) ∧
      (∀ j, ∃ w, (reduce s).cost w j = 0) := by
  set t := reduceRows s with ht
  have hrow := fun w => reduceRows_row_facts s w
  have hcolNe : ∀ j : Fin n, colList t j ≠ [] := by
    intro j
    have : t.cost j j ∈ colList t j := List.mem_map_of_mem _ (List.mem_finRange j)
    exact List.ne_nil_of_mem this
  have hcolMin : ∀ j : Fin n, ∃ m, scanMin (colList t j) = some m ∧
      0 ≤ m ∧ (∃ w0, t.cost w0 j = m) ∧ ∀ w, m ≤ t.cost w j := by
    intro j
    obtain ⟨m, hm, hmem, hle⟩ := scanMin_spec (colList t j) (hcolNe j)
    obtain ⟨w0, _, hw0⟩ := List.mem_map.mp hmem
    refine ⟨m, hm, ?_, ⟨w0, hw0⟩, ?_⟩
    · rw [← hw0]; exact (hrow w0).1 j
    · intro w; exact hle _ (List.mem_map_of_mem _ (List.mem_finRange w))
  refine ⟨?_, ?_, ?_⟩
  · intro w j
    obtain ⟨m, hm, _, _, hub⟩ := hcolMin j
    have : (reduce s).cost w j = t.cost w j - m := by
      show (reduceCols t).cost w j = _
      rw [reduceCols_cost]
      simp [hm]
    rw [this]
    have := hub w
    linarith
  · intro w
    obtain ⟨j0, hj0⟩ := (hrow w).2
    obtain ⟨m, hm, hm0, _, hub⟩ := hcolMin j0
    have hble : m ≤ 0 := hj0 ▸ hub w
    have hmz : m = 0 := le_antisymm hble hm0
    have hj1 : t.cost w j0 = 0 := by rw [ht]; exact hj0
    refine ⟨j0, ?_⟩
    show (reduceCols t).cost w j0 = 0
    rw [reduceCols_cost]
    simp [hm, hmz, hj1]
  · intro j
    obtain ⟨m, hm, _, ⟨w0, hw0⟩, _⟩ := hcolMin j
    refine ⟨w0, ?_⟩
    show (reduceCols t).cost w0 j = 0
    rw [reduceCols_cost]
    simp [hm, hw0]

/-! ### Field bookkeeping for the matching operations -/

theorem reduce_matchJW (s : State n) :
    (reduce s).matchJobByWorker = s.matchJobByWorker := by
  have h : (reduceRows s).matchJobByWorker = s.matchJobByWorker := by
    refine foldl_preserve (fun t => t.matchJobByWorker = s.matchJobByWorker)
      reduceRowsStep ?_ _ s rfl
    intro t w ht
    simpa [reduceRowsStep] using ht
  simpa [reduce, reduceCols] using h

theorem reduce_matchWJ (s : State n) :
    (reduce s).matchWorkerByJob = s.matchWorkerByJob := by
  have h : (reduceRows s).matchWorkerByJob = s.matchWorkerByJob := by
    refine foldl_preserve (fun t => t.matchWorkerByJob = s.matchWorkerByJob)
      reduceRowsStep ?_ _ s rfl
    intro t w ht
    simpa [reduceRowsStep] using ht
  simpa [reduce, reduceCols] using h

theorem computeInitial_matchJW (s : State n) :
    (computeInitialFeasibleSolution s).matchJobByWorker = s.matchJobByWorker := rfl

theorem computeInitial_matchWJ (s : State n) :
    (computeInitialFeasibleSolution s).matchWorkerByJob = s.matchWorkerByJob := rfl

theorem initializePhase_matchJW (w : Fin n) (s : State n) :
    (initializePhase w s).matchJobByWorker = s.matchJobByWorker := rfl

theorem initializePhase_matchWJ (w : Fin n) (s : State n) :
    (initializePhase w s).matchWorkerByJob = s.matchWorkerByJob := rfl

theorem updateLabeling_matchJW (v : ℚ) (s : State n) :
    (updateLabeling v s).matchJobByWorker = s.matchJobByWorker := rfl

theorem updateLabeling_matchWJ (v : ℚ) (s : State n) :
    (updateLabeling v s).matchWorkerByJob = s.matchWorkerByJob := rfl

theorem updateLabeling_parentW (v : ℚ) (s : State n) :
    (updateLabeling v s).parentWorkerByCommittedJob = s.parentWorkerByCommittedJob := rfl

theorem updateLabeling_committed (v : ℚ) (s : State n) :
    (updateLabeling v s).committedWorkers = s.committedWorkers := rfl

theorem updateLabeling_msw (v : ℚ) (s : State n) :
    (updateLabeling v s).minSlackWorkerByJob = s.minSlackWorkerByJob := rfl

theorem setParent_matchJW (j w : Fin n) (s : State n) :
    (setParent j w s).matchJobByWorker = s.matchJobByWorker := rfl

theorem setParent_matchWJ (j w : Fin n) (s : State n) :
    (setParent j w s).matchWorkerByJob = s.matchWorkerByJob := rfl

theorem setParent_committed (j w : Fin n) (s : State n) :
    (setParent j w s).committedWorkers = s.committedWorkers := rfl

theorem setParent_msw (j w : Fin n) (s : State n) :
    (setParent j w s).minSlackWorkerByJob = s.minSlackWorkerByJob := rfl

theorem setParent_parentW (j w : Fin n) (s : State n) :
    (setParent j w s).parentWorkerByCommittedJob =
      Function.update s.parentWorkerByCommittedJob j (some w) := rfl

theorem commitWorker_matchJW (w : Fin n) (s : State n) :
    (commitWorker w s).matchJobByWorker = s.matchJobByWorker := rfl

theorem commitWorker_matchWJ (w : Fin n) (s : State n) :
    (commitWorker w s).matchWorkerByJob = s.matchWorkerByJob := rfl

theorem commitWorker_parentW (w : Fin n) (s : State n) :
    (commitWorker w s).parentWorkerByCommittedJob = s.parentWorkerByCommittedJob := rfl

theorem commitWorker_msw (w : Fin n) (s : State n) :
    (commitWorker w s).minSlackWorkerByJob = s.minSlackWorkerByJob := rfl

theorem commitWorker_committed (w : Fin n) (s : State n) :
    (commitWorker w s).committedWorkers = Function.update s.committedWorkers w true := rfl

theorem recordMatch_matchJW (w j : Fin n) (s : State n) :
    (recordMatch w j s).matchJobByWorker =
      Function.update s.matchJobByWorker w (some j) := rfl

theorem recordMatch_matchWJ (w j : Fin n) (s : State n) :
    (recordMatch w j s).matchWorkerByJob =
      Function.update s.matchWorkerByJob j (some w) := rfl

theorem recordMatch_parentW (w j : Fin n) (s : State n) :
    (recordMatch w j s).parentWorkerByCommittedJob = s.parentWorkerByCommittedJob := rfl

theorem updateSlackStep_fields (worker : Fin n) (t : State n) (j : Fin n) :
    (updateSlackStep worker t j).matchJobByWorker = t.matchJobByWorker ∧
    (updateSlackStep worker t j).matchWorkerByJob = t.matchWorkerByJob ∧
    (updateSlackStep worker t j).parentWorkerByCommittedJob = t.parentWorkerByCommittedJob ∧
    (updateSlackStep worker t j).committedWorkers = t.committedWorkers := by
  unfold updateSlackStep
  split
  · split
    · exact ⟨rfl, rfl, rfl, rfl⟩
    · exact ⟨rfl, rfl, rfl, rfl⟩
  · exact ⟨rfl, rfl, rfl, rfl⟩

theorem updateSlacksFor_fields (worker : Fin n) (s : State n) :
    (updateSlacksFor worker s).matchJobByWorker = s.matchJobByWorker ∧
    (updateSlacksFor worker s).matchWorkerByJob = s.matchWorkerByJob ∧
    (updateSlacksFor worker s).parentWorkerByCommittedJob = s.parentWorkerByCommittedJob ∧
    (updateSlacksFor worker s).committedWorkers = s.committedWorkers := by
  refine foldl_preserve (fun t =>
    t.matchJobByWorker = s.matchJobByWorker ∧
    t.matchWorkerByJob = s.matchWorkerByJob ∧
    t.parentWorkerByCommittedJob = s.parentWorkerByCommittedJob ∧
    t.committedWorkers = s.committedWorkers) (updateSlackStep worker) ?_ _ s
    ⟨rfl, rfl, rfl, rfl⟩
  intro t j ht
  obtain ⟨h1, h2, h3, h4⟩ := updateSlackStep_fields worker t j
  exact ⟨h1.trans ht.1, h2.trans ht.2.1, h3.trans ht.2.2.1, h4.trans ht.2.2.2⟩

theorem updateSlackStep_msw (worker : Fin n) (t : State n) (j j2 : Fin n) :
    (updateSlackStep worker t j2).minSlackWorkerByJob j = t.minSlackWorkerByJob j ∨
      (updateSlackStep worker t j2).minSlackWorkerByJob j = worker := by
  unfold updateSlackStep
  split
  · split
    · by_cases hj : j = j2
      · subst hj; right; simp
      · left; simp [Function.update_noteq hj]
    · left; rfl
  · left; rfl

theorem updateSlacksFor_msw (worker : Fin n) (s : State n) (j : Fin n) :
    (updateSlacksFor worker s).minSlackWorkerByJob j = s.minSlackWorkerByJob j ∨
      (updateSlacksFor worker s).minSlackWorkerByJob j = worker := by
  refine foldl_preserve (fun t =>
    t.minSlackWorkerByJob j = s.minSlackWorkerByJob j ∨
      t.minSlackWorkerByJob j = worker) (updateSlackStep worker) ?_ _ s (Or.inl rfl)
  intro t j2 ht
  rcases updateSlackStep_msw worker t j j2 with h | h
  · rw [h]; exact ht
  · exact Or.inr h

/-! ### The mutual-inverse invariant through the operations -/

theorem mkState_mutualInv (rows cols : ℕ) (c : Fin rows → Fin cols → ℚ)
    (g : ScratchInit (max rows cols)) : MutualInv (mkState rows cols c g) := by
  intro w j
  constructor <;> (intro h; exact absurd h (by simp [mkState]))

theorem recordMatch_mutualInv (s : State n) (w j : Fin n)
    (hw : s.matchJobByWorker w = none) (hj : s.matchWorkerByJob j = none)
    (h : MutualInv s) : MutualInv (recordMatch w j s) := by
  intro w2 j2
  rw [recordMatch_matchJW, recordMatch_matchWJ]
  by_cases hww : w2 = w
  · subst hww
    by_cases hjj : j2 = j
    · subst hjj; simp
    · simp only [Function.update_same, Function.update_noteq hjj]
      constructor
      · intro hsome
        exact absurd (Option.some.inj hsome).symm hjj
      · intro hsome
        exact absurd hw (by rw [(h w2 j2).mpr hsome]; simp)
  · by_cases hjj : j2 = j
    · subst hjj
      simp only [Function.update_noteq hww, Function.update_same]
      constructor
      · intro hsome
        exact absurd hj (by rw [(h w2 j2).mp hsome]; simp)
      · intro hsome
        exact absurd (Option.some.inj hsome).symm hww
    · simp only [Function.update_noteq hww, Function.update_noteq hjj]
      exact h w2 j2

theorem greedyStep_mutualInv (w : Fin n) (t : State n) (j : Fin n)
    (h : MutualInv t) : MutualInv (greedyStep w t j) := by
  unfold greedyStep
  split_ifs with hc
  · exact recordMatch_mutualInv t w j hc.1 hc.2.1 h
  · exact h

theorem greedyMatch_mutualInv (s : State n) (h : MutualInv s) :
    MutualInv (greedyMatch s) := by
  refine foldl_preserve MutualInv _ ?_ _ s h
  intro t w ht
  exact foldl_preserve MutualInv (greedyStep w) (fun t2 j h2 => greedyStep_mutualInv w t2 j h2)
    _ t ht

/-! ### The minimum-slack scan -/

theorem scanMinSlack_props (s : State n) (w j : Fin n) (v : ℚ)
    (h : scanMinSlack s = some (w, j, v)) :
    s.parentWorkerByCommittedJob j = none ∧
      w = s.minSlackWorkerByJob j ∧ v = s.minSlackByJob j := by
  have main : ∀ (l : List (Fin n)) (acc : Option (Fin n × Fin n × ℚ)),
      (∀ x, acc = some x → s.parentWorkerByCommittedJob x.2.1 = none ∧
        x.1 = s.minSlackWorkerByJob x.2.1 ∧ x.2.2 = s.minSlackByJob x.2.1) →
      ∀ x, l.foldl (scanMinSlackStep s) acc = some x →
        s.parentWorkerByCommittedJob x.2.1 = none ∧
          x.1 = s.minSlackWorkerByJob x.2.1 ∧ x.2.2 = s.minSlackByJob x.2.1 := by
    intro l
    induction l with
    | nil => intro acc hacc x hx; exact hacc x hx
    | cons y ys ih =>
      intro acc hacc x hx
      refine ih (scanMinSlackStep s acc y) ?_ x hx
      intro z hz
      unfold scanMinSlackStep at hz
      by_cases hy : s.parentWorkerByCommittedJob y = none
      · simp only [hy, if_true] at hz
        match acc, hz with
        | none, hz => exact ⟨by rw [← Option.some.inj hz]; exact hy,
            by rw [← Option.some.inj hz], by rw [← Option.some.inj hz]⟩
        | some (w0, j0, v0), hz =>
          by_cases hlt : s.minSlackByJob y < v0
          · simp only [hlt, if_true] at hz
            exact ⟨by rw [← Option.some.inj hz]; exact hy,
              by rw [← Option.some.inj hz], by rw [← Option.some.inj hz]⟩
          · simp only [hlt, if_false] at hz
            exact hacc z (by rw [hz])
      · simp only [hy, if_false] at hz
        exact hacc z hz
  have := main (List.finRange n) none (by intro x hx; cases hx) (w, j, v) h
  simpa using this

theorem scanMinSlack_isSome (s : State n) (j0 : Fin n)
    (h : s.parentWorkerByCommittedJob j0 = none) :
    ∃ x, scanMinSlack s = some x := by
  have absorb : ∀ (l : List (Fin n)) (acc : Option (Fin n × Fin n × ℚ)),
      acc.isSome → (l.foldl (scanMinSlackStep s) acc).isSome := by
    intro l
    induction l with
    | nil => intro acc hacc; exact hacc
    | cons y ys ih =>
      intro acc hacc
      refine ih _ ?_
      unfold scanMinSlackStep
      match acc, hacc with
      | some (w0, j1, v0), _ =>
        by_cases hy : s.parentWorkerByCommittedJob y = none
        · simp only [hy, if_true]
          by_cases hlt : s.minSlackByJob y < v0 <;> simp [hlt]
        · simp [hy]
  have main : ∀ (l : List (Fin n)) (acc : Option (Fin n × Fin n × ℚ)),
      (acc.isSome ∨ ∃ j2 ∈ l, s.parentWorkerByCommittedJob j2 = none) →
      (l.foldl (scanMinSlackStep s) acc).isSome := by
    intro l
    induction l with
    | nil =>
      intro acc hacc
      rcases hacc with hs | ⟨j2, hj2, _⟩
      · exact hs
      · cases hj2
    | cons y ys ih =>
      intro acc hacc
      rcases hacc with hs | ⟨j2, hj2, hcond⟩
      · exact absorb (y :: ys) acc hs
      · rcases List.mem_cons.mp hj2 with hh | hh
        · subst hh
          rw [List.foldl_cons]
          refine absorb ys _ ?_
          unfold scanMinSlackStep
          match acc with
          | none => simp [hcond]
          | some (w0, j1, v0) =>
            simp only [hcond, if_true]
            by_cases hlt : s.minSlackByJob j2 < v0 <;> simp [hlt]
        · exact ih _ (Or.inr ⟨j2, hh, hcond⟩)
  have := main (List.finRange n) none (Or.inr ⟨j0, List.mem_finRange j0, h⟩)
  exact Option.isSome_iff_exists.mp this

/-! ### The augmenting path -/

/-- The alternating path the augmenting walk follows: each pair holds a
committed job and its recorded parent worker; a worker is either matched to
the next job of the path or unmatched (the phase root), which ends it. -/
inductive AugPath (s : State n) : Fin n → List (Fin n × Fin n) → Prop where
  | last (j w : Fin n) :
      s.parentWorkerByCommittedJob j = some w → s.matchJobByWorker w = none →
      AugPath s j [(j, w)]
  | step (j w j2 : Fin n) (p : List (Fin n × Fin n)) :
      s.parentWorkerByCommittedJob j = some w → s.matchJobByWorker w = some j2 →
      AugPath s j2 p → AugPath s j ((j, w) :: p)

theorem AugPath.ne_nil {s : State n} {j : Fin n} {p : List (Fin n × Fin n)}
    (h : AugPath s j p) : p ≠ [] := by
  cases h <;> simp

theorem AugPath.head_mem_fst {s : State n} {j : Fin n} {p : List (Fin n × Fin n)}
    (h : AugPath s j p) : j ∈ p.map Prod.fst := by
  cases h <;> simp

theorem AugPath.workers_match {s : State n} {j : Fin n} {p : List (Fin n × Fin n)}
    (h : AugPath s j p) :
    ∀ x ∈ p, s.matchJobByWorker x.2 = none ∨
      ∃ y ∈ (p.map Prod.fst).tail, s.matchJobByWorker x.2 = some y := by
  induction h with
  | last j w hpar hnone =>
    intro x hx
    rw [List.mem_singleton] at hx
    subst hx
    exact Or.inl hnone
  | step j w j2 p hpar hmat hrec ih =>
    intro x hx
    rcases List.mem_cons.mp hx with hh | hh
    · subst hh
      refine Or.inr ⟨j2, ?_, hmat⟩
      simpa using hrec.head_mem_fst
    · rcases ih x hh with hcase | ⟨y, hy, hcase⟩
      · exact Or.inl hcase
      · refine Or.inr ⟨y, ?_, hcase⟩
        simpa using List.mem_of_mem_tail hy

theorem AugPath.head_shape {s : State n} {j : Fin n} {p : List (Fin n × Fin n)}
    (h : AugPath s j p) : ∃ w rest, p = (j, w) :: rest := by
  cases h with
  | last j w hpar hnone => exact ⟨w, [], rfl⟩
  | step j w j2 rest hpar hmat hrec => exact ⟨w, rest, rfl⟩

theorem AugPath.snd_nodup {s : State n} {j : Fin n} {p : List (Fin n × Fin n)}
    (h : AugPath s j p) (hfst : (p.map Prod.fst).Nodup) :
    (p.map Prod.snd).Nodup := by
  induction h with
  | last j w hpar hnone => simp
  | step j w j2 p hpar hmat hrec ih =>
    rw [List.map_cons] at hfst ⊢
    rw [List.nodup_cons] at hfst ⊢
    refine ⟨?_, ih hfst.2⟩
    intro hwmem
    obtain ⟨x, hx, hxw⟩ := List.mem_map.mp hwmem
    rcases hrec.workers_match x hx with hcase | ⟨y, hy, hcase⟩
    · rw [hxw] at hcase
      rw [hcase] at hmat
      exact Option.noConfusion hmat
    · rw [hxw] at hcase
      rw [hmat] at hcase
      have hyj2 : y = j2 := (Option.some.inj hcase).symm
      subst hyj2
      obtain ⟨w3, rest3, hshape⟩ := hrec.head_shape
      rw [hshape, List.map_cons, List.nodup_cons] at hfst
      rw [hshape, List.map_cons, List.tail_cons] at hy
      exact hfst.2.1 hy

theorem AugPath.recordMatch_preserved {s : State n} {j2 : Fin n}
    {p : List (Fin n × Fin n)} (h : AugPath s j2 p) (w j : Fin n)
    (hw : w ∉ p.map Prod.snd) : AugPath (recordMatch w j s) j2 p := by
  induction h with
  | last j3 w3 hpar hnone =>
    have hne : w3 ≠ w := by
      intro hc
      exact hw (by simp [hc])
    refine AugPath.last j3 w3 hpar ?_
    rw [recordMatch_matchJW, Function.update_noteq hne]
    exact hnone
  | step j3 w3 j4 p hpar hmat hrec ih =>
    have hne : w3 ≠ w := by
      intro hc
      exact hw (by simp [hc])
    refine AugPath.step j3 w3 j4 p hpar ?_ ?_
    · rw [recordMatch_matchJW, Function.update_noteq hne]
      exact hmat
    · refine ih ?_
      intro hc
      exact hw (by simp [hc])

/-- The state after the walk has flipped every edge of the path. -/
def flipAlong (s : State n) (p : List (Fin n × Fin n)) : State n :=
  p.foldl (fun t x => recordMatch x.2 x.1 t) s

/-- The augmenting walk of execute_phase, run on a recorded alternating path:
it performs exactly the flips of the path with one walkStep per pair. -/
theorem walkAux_eq {p : List (Fin n × Fin n)} :
    ∀ {s : State n} {j : Fin n}, AugPath s j p → (p.map Prod.snd).Nodup →
    ∀ fuel, p.length ≤ fuel → walkAux fuel s j = some (flipAlong s p) := by
  induction p with
  | nil => intro s j h _ _ _; exact absurd rfl h.ne_nil
  | cons a rest ih =>
    intro s j h hnd fuel hfuel
    match fuel, hfuel with
    | fuel + 1, hfuel =>
      cases h with
      | last j w hpar hnone =>
        show walkAux (fuel + 1) s j = some (flipAlong s [(j, w)])
        unfold walkAux walkStep
        rw [hpar]
        simp only [hnone]
        rfl
      | step j w j2 p2 hpar hmat hrec =>
        show walkAux (fuel + 1) s j = some (flipAlong s ((j, w) :: rest))
        unfold walkAux walkStep
        rw [hpar]
        simp only [hmat]
        have hwmem : w ∉ rest.map Prod.snd := by
          rw [List.map_cons, List.nodup_cons] at hnd
          exact hnd.1
        have hrec2 : AugPath (recordMatch w j s) j2 rest :=
          hrec.recordMatch_preserved w j hwmem
        have hnd2 : (rest.map Prod.snd).Nodup := by
          rw [List.map_cons, List.nodup_cons] at hnd
          exact hnd.2
        have hlen : rest.length ≤ fuel := by
          simp only [List.length_cons] at hfuel
          omega
        have := ih hrec2 hnd2 fuel hlen
        rw [this]
        rfl

/-- The mutual-inverse property, weakened at one job: nothing points to j0 in
the worker-to-job direction, and all pairs away from j0 are consistent (the
entry match_worker_by_job[j0] itself may be stale). -/
def MutualInvExcept (s : State n) (j0 : Fin n) : Prop :=
  (∀ w, s.matchJobByWorker w ≠ some j0) ∧
  ∀ w j, j ≠ j0 → (s.matchJobByWorker w = some j ↔ s.matchWorkerByJob j = some w)

/-- The outcome of the augmenting flip: walking an alternating path from an
unmatched-pointed-to job to the root restores the mutual-inverse property and
matches exactly the root in addition to the previously matched workers. -/
theorem flipAlong_post {p : List (Fin n × Fin n)} :
    ∀ {s : State n} {j root : Fin n},
      AugPath s j p → (p.map Prod.fst).Nodup → (p.map Prod.snd).Nodup →
      MutualInvExcept s j → (p.map Prod.snd).getLast? = some root →
      s.matchJobByWorker root = none →
      MutualInv (flipAlong s p) ∧
        ∀ w, ((flipAlong s p).matchJobByWorker w ≠ none ↔
          (s.matchJobByWorker w ≠ none ∨ w = root)) := by
  induction p with
  | nil => intro s j root h _ _ _ _ _; exact absurd rfl h.ne_nil
  | cons a rest ih =>
    intro s j root h hfst hsnd hmie hlast hrootun
    cases h with
    | last j w hpar hnone =>
      have hroot : w = root := by
        simpa using hlast
      subst hroot
      constructor
      · intro w2 j2
        show (recordMatch w j s).matchJobByWorker w2 = some j2 ↔
          (recordMatch w j s).matchWorkerByJob j2 = some w2
        rw [recordMatch_matchJW, recordMatch_matchWJ]
        by_cases hw2 : w2 = w
        · subst hw2
          by_cases hj2 : j2 = j
          · subst hj2; simp
          · rw [Function.update_same, Function.update_noteq hj2]
            constructor
            · intro hsome
              exact absurd (Option.some.inj hsome).symm hj2
            · intro hsome
              have := (hmie.2 w2 j2 hj2).mpr hsome
              rw [hnone] at this
              exact Option.noConfusion this
        · by_cases hj2 : j2 = j
          · subst hj2
            rw [Function.update_noteq hw2, Function.update_same]
            constructor
            · intro hsome
              exact absurd hsome (hmie.1 w2)
            · intro hsome
              exact absurd (Option.some.inj hsome).symm hw2
          · rw [Function.update_noteq hw2, Function.update_noteq hj2]
            exact hmie.2 w2 j2 hj2
      · intro w2
        show (recordMatch w j s).matchJobByWorker w2 ≠ none ↔ _
        rw [recordMatch_matchJW]
        by_cases hw2 : w2 = w
        · subst hw2
          simp
        · rw [Function.update_noteq hw2]
          simp [hw2]
    | step j w j2 rest hpar hmat hrec =>
      -- facts about the shapes
      have hrestne : rest ≠ [] := hrec.ne_nil
      have hsndne : rest.map Prod.snd ≠ [] := by
        intro hc
        exact hrestne (List.map_eq_nil_iff.mp hc)
      obtain ⟨c, cs, hcc⟩ := List.exists_cons_of_ne_nil hsndne
      have hlast2 : (rest.map Prod.snd).getLast? = some root := by
        rw [List.map_cons, hcc, List.getLast?_cons_cons, ← hcc] at hlast
        exact hlast
      have hrootmem : root ∈ rest.map Prod.snd :=
        List.mem_of_getLast?_eq_some hlast2
      have hwnotmem : w ∉ rest.map Prod.snd := by
        rw [List.map_cons, List.nodup_cons] at hsnd
        exact hsnd.1
      have hwroot : w ≠ root := fun hc => hwnotmem (hc ▸ hrootmem)
      have hjj2 : j ≠ j2 := by
        intro hc
        rw [List.map_cons, List.nodup_cons] at hfst
        exact hfst.1 (hc ▸ hrec.head_mem_fst)
      set s1 := recordMatch w j s with hs1
      have hfst2 : (rest.map Prod.fst).Nodup := by
        rw [List.map_cons, List.nodup_cons] at hfst
        exact hfst.2
      have hsnd2 : (rest.map Prod.snd).Nodup := by
        rw [List.map_cons, List.nodup_cons] at hsnd
        exact hsnd.2
      have hrec1 : AugPath s1 j2 rest := hrec.recordMatch_preserved w j hwnotmem
      have hroot1 : s1.matchJobByWorker root = none := by
        rw [hs1, recordMatch_matchJW, Function.update_noteq (Ne.symm hwroot)]
        exact hrootun
      have hj2j : j2 ≠ j := Ne.symm hjj2
      have hmie1 : MutualInvExcept s1 j2 := by
        constructor
        · intro w2
          rw [hs1, recordMatch_matchJW]
          by_cases hw2 : w2 = w
          · subst hw2
            rw [Function.update_same]
            intro hc
            exact hjj2 (Option.some.inj hc)
          · rw [Function.update_noteq hw2]
            intro hc
            have h1 : s.matchWorkerByJob j2 = some w2 := (hmie.2 w2 j2 hj2j).mp hc
            have h2 : s.matchWorkerByJob j2 = some w := (hmie.2 w j2 hj2j).mp hmat
            rw [h1] at h2
            exact hw2 (Option.some.inj h2)
        · intro w2 j3 hj3
          rw [hs1, recordMatch_matchJW, recordMatch_matchWJ]
          by_cases hj3j : j3 = j
          · subst hj3j
            rw [Function.update_same]
            by_cases hw2 : w2 = w
            · subst hw2
              rw [Function.update_same]
              simp
            · rw [Function.update_noteq hw2]
              constructor
              · intro hc
                exact absurd hc (hmie.1 w2)
              · intro hc
                exact absurd (Option.some.inj hc).symm hw2
          · rw [Function.update_noteq hj3j]
            by_cases hw2 : w2 = w
            · subst hw2
              rw [Function.update_same]
              constructor
              · intro hc
                exact absurd (Option.some.inj hc).symm hj3j
              · intro hc
                have := (hmie.2 w2 j3 hj3j).mpr hc
                rw [hmat] at this
                exact absurd (Option.some.inj this).symm hj3
            · rw [Function.update_noteq hw2]
              exact hmie.2 w2 j3 hj3j
      obtain ⟨hinv2, hmm2⟩ := ih hrec1 hfst2 hsnd2 hmie1 hlast2 hroot1
      constructor
      · exact hinv2
      · intro w2
        have hstep : s1.matchJobByWorker w2 ≠ none ↔ s.matchJobByWorker w2 ≠ none := by
          rw [hs1, recordMatch_matchJW]
          by_cases hw2 : w2 = w
          · subst hw2
            rw [Function.update_same, hmat]
            simp
          · rw [Function.update_noteq hw2]
        have := hmm2 w2
        rw [hstep] at this
        exact this

/-! ### The phase invariant -/

/-- The invariant holding at the top of every execute_phase loop iteration for
the phase rooted at the unmatched worker root, where L lists the committed
jobs in commit order: the matching arrays are mutual inverses, the root is
unmatched, committed jobs are exactly those with a parent pointer and all are
matched, the committed workers are the root together with the workers matched
to committed jobs, every committed job's parent was committed before it, and
the recorded minimum-slack workers of uncommitted jobs are committed. -/
structure PhaseInv (root : Fin n) (s : State n) (L : List (Fin n)) : Prop where
  inv : MutualInv s
  rootUn : s.matchJobByWorker root = none
  nodup : L.Nodup
  parentIff : ∀ j, s.parentWorkerByCommittedJob j ≠ none ↔ j ∈ L
  matchedL : ∀ j ∈ L, s.matchWorkerByJob j ≠ none
  commitIff : ∀ w, s.committedWorkers w = true ↔
    (w = root ∨ ∃ j ∈ L, s.matchWorkerByJob j = some w)
  parentStruct : ∀ i (hi : i < L.length), ∃ w,
    s.parentWorkerByCommittedJob (L.get ⟨i, hi⟩) = some w ∧
    (w = root ∨ ∃ k, ∃ hk : k < L.length, k < i ∧
      s.matchWorkerByJob (L.get ⟨k, hk⟩) = some w)
  slackCommitted : ∀ j, s.parentWorkerByCommittedJob j = none →
    s.committedWorkers (s.minSlackWorkerByJob j) = true

/-- C10 core: the committed workers are the root plus one distinct matched
worker per committed job, so fewer than n jobs are committed at the top of
every loop iteration. -/
theorem PhaseInv.length_lt {root : Fin n} {s : State n} {L : List (Fin n)}
    (h : PhaseInv root s L) : L.length < n := by
  classical
  set g : Fin n → Fin n := fun j => (s.matchWorkerByJob j).getD root with hg
  have hsome : ∀ j ∈ L, s.matchWorkerByJob j = some (g j) := by
    intro j hj
    rcases hmw : s.matchWorkerByJob j with _ | w
    · exact absurd hmw (h.matchedL j hj)
    · simp [hg, hmw]
  have hgroot : ∀ j ∈ L, g j ≠ root := by
    intro j hj hc
    have h1 := hsome j hj
    rw [hc] at h1
    have h2 := (h.inv root j).mpr h1
    rw [h.rootUn] at h2
    exact Option.noConfusion h2
  have hinj : ∀ x ∈ L, ∀ y ∈ L, g x = g y → x = y := by
    intro x hx y hy hxy
    have h1 := hsome x hx
    have h2 := hsome y hy
    rw [hxy] at h1
    have e1 := (h.inv (g y) x).mpr h1
    have e2 := (h.inv (g y) y).mpr h2
    rw [e1] at e2
    exact Option.some.inj e2
  have hnodupmap : (root :: L.map g).Nodup := by
    rw [List.nodup_cons]
    refine ⟨?_, List.Nodup.map_on hinj h.nodup⟩
    intro hmem
    obtain ⟨j, hj, hjg⟩ := List.mem_map.mp hmem
    exact hgroot j hj hjg
  have hle := hnodupmap.length_le_card
  simp only [List.length_cons, List.length_map, Fintype.card_fin] at hle
  omega

theorem PhaseInv.exists_uncommitted {root : Fin n} {s : State n} {L : List (Fin n)}
    (h : PhaseInv root s L) : ∃ j, s.parentWorkerByCommittedJob j = none := by
  classical
  have hlt := h.length_lt
  have hcard : L.toFinset.card < n :=
    lt_of_le_of_lt (List.toFinset_card_le L) hlt
  have hcompl : (L.toFinsetᶜ : Finset (Fin n)).Nonempty := by
    rw [← Finset.card_pos, Finset.card_compl, Fintype.card_fin]
    omega
  obtain ⟨j, hj⟩ := hcompl
  refine ⟨j, ?_⟩
  have hnotmem : j ∉ L := fun hc => (Finset.mem_compl.mp hj) (List.mem_toFinset.mpr hc)
  by_contra hc
  exact hnotmem ((h.parentIff j).mp hc)

theorem get_append_left_aux (L : List (Fin n)) (j0 : Fin n) (k : ℕ)
    (hk : k < L.length) (hk2 : k < (L ++ [j0]).length) :
    (L ++ [j0]).get ⟨k, hk2⟩ = L.get ⟨k, hk⟩ := by
  rw [List.get_eq_getElem, List.get_eq_getElem]
  exact List.getElem_append_left hk

theorem get_append_last_aux (L : List (Fin n)) (j0 : Fin n)
    (h : L.length < (L ++ [j0]).length) :
    (L ++ [j0]).get ⟨L.length, h⟩ = j0 := by
  rw [List.get_eq_getElem]
  rw [List.getElem_append_right (le_refl L.length)]
  simp

/-- From the parent structure of the committed jobs, an alternating path from
any committed job back to the root can be read off; the walk below follows
exactly this path. -/
theorem extractPath (s : State n) (root : Fin n) (L : List (Fin n))
    (hbij : MutualInv s) (hnd : L.Nodup)
    (hstruct : ∀ i (hi : i < L.length), ∃ w,
      s.parentWorkerByCommittedJob (L.get ⟨i, hi⟩) = some w ∧
      (w = root ∨ ∃ k, ∃ hk : k < L.length, k < i ∧
        s.matchWorkerByJob (L.get ⟨k, hk⟩) = some w))
    (hrootun : s.matchJobByWorker root = none) :
    ∀ i (hi : i < L.length), ∃ p, AugPath s (L.get ⟨i, hi⟩) p ∧
      (p.map Prod.fst).Nodup ∧
      (∀ x ∈ p, ∃ k, ∃ hk : k < L.length, k ≤ i ∧ x.1 = L.get ⟨k, hk⟩) ∧
      (p.map Prod.snd).getLast? = some root := by
  intro i
  induction i using Nat.strong_induction_on with
  | _ i ih =>
    intro hi
    obtain ⟨w, hw, hcase⟩ := hstruct i hi
    rcases hcase with hwr | ⟨k, hk, hki, hmk⟩
    · refine ⟨[(L.get ⟨i, hi⟩, w)], AugPath.last _ _ hw (by rw [hwr]; exact hrootun),
        by simp, ?_, by simpa using hwr⟩
      intro x hx
      rw [List.mem_singleton] at hx
      subst hx
      exact ⟨i, hi, le_refl i, rfl⟩
    · have hjw : s.matchJobByWorker w = some (L.get ⟨k, hk⟩) := (hbij w _).mpr hmk
      obtain ⟨p, hp, hpnd, hpmem, hplast⟩ := ih k hki hk
      refine ⟨(L.get ⟨i, hi⟩, w) :: p, AugPath.step _ _ _ _ hw hjw hp, ?_, ?_, ?_⟩
      · rw [List.map_cons, List.nodup_cons]
        refine ⟨?_, hpnd⟩
        intro hmemi
        obtain ⟨x, hx, hxeq⟩ := List.mem_map.mp hmemi
        obtain ⟨k2, hk2, hk2le, hk2eq⟩ := hpmem x hx
        rw [hk2eq] at hxeq
        have heq := (hnd.get_inj_iff).mp hxeq
        have hk2i : k2 = i := by
          simpa using congrArg Fin.val heq
        omega
      · intro x hx
        rcases List.mem_cons.mp hx with hh | hh
        · exact ⟨i, hi, le_refl i, by rw [hh]⟩
        · obtain ⟨k2, hk2, hk2le, heq⟩ := hpmem x hh
          exact ⟨k2, hk2, le_trans hk2le (le_of_lt hki), heq⟩
      · rw [List.map_cons]
        have hne : p.map Prod.snd ≠ [] := by
          intro hcon
          rw [hcon] at hplast
          exact Option.noConfusion hplast
        obtain ⟨c, cs, hcc⟩ := List.exists_cons_of_ne_nil hne
        rw [hcc, List.getLast?_cons_cons, ← hcc]
        exact hplast

/-- The non-augmenting branch of an execute_phase iteration preserves the
phase invariant, appending the newly committed job: here s3 stands for the
state after update_labeling (combinatorially invisible), the commit of j0
with parent w0, and, j0 being matched to worker, the commit of worker with
the slack refresh. -/
theorem phaseInv_extend (root : Fin n) (s s3 : State n) (L : List (Fin n))
    (hP : PhaseInv root s L) (j0 w0 worker : Fin n)
    (hj0 : s.parentWorkerByCommittedJob j0 = none)
    (hw0 : w0 = s.minSlackWorkerByJob j0)
    (hmat : s.matchWorkerByJob j0 = some worker)
    (h3jw : s3.matchJobByWorker = s.matchJobByWorker)
    (h3wj : s3.matchWorkerByJob = s.matchWorkerByJob)
    (h3p : s3.parentWorkerByCommittedJob =
      Function.update s.parentWorkerByCommittedJob j0 (some w0))
    (h3c : s3.committedWorkers = Function.update s.committedWorkers worker true)
    (h3m : ∀ j, s3.minSlackWorkerByJob j = s.minSlackWorkerByJob j ∨
      s3.minSlackWorkerByJob j = worker) :
    PhaseInv root s3 (L ++ [j0]) := by
  have hj0notmem : j0 ∉ L := fun hc => (hP.parentIff j0).mpr hc hj0
  constructor
  · intro w j
    rw [h3jw, h3wj]
    exact hP.inv w j
  · rw [h3jw]
    exact hP.rootUn
  · rw [List.nodup_append]
    refine ⟨hP.nodup, List.nodup_singleton j0, ?_⟩
    intro a ha hmem
    rw [List.mem_singleton] at hmem
    exact hj0notmem (hmem ▸ ha)
  · intro j
    rw [h3p]
    by_cases hj : j = j0
    · subst hj
      rw [Function.update_same]
      simp
    · rw [Function.update_noteq hj, hP.parentIff j]
      simp [List.mem_append, hj]
  · intro j hj
    rw [h3wj]
    rcases List.mem_append.mp hj with hh | hh
    · exact hP.matchedL j hh
    · rw [List.mem_singleton] at hh
      subst hh
      rw [hmat]
      simp
  · intro w
    rw [h3c, h3wj]
    by_cases hww : w = worker
    · subst hww
      rw [Function.update_same]
      constructor
      · intro _
        exact Or.inr ⟨j0, by simp, hmat⟩
      · intro _
        rfl
    · rw [Function.update_noteq hww, hP.commitIff w]
      constructor
      · rintro (h | ⟨j, hj, hjw⟩)
        · exact Or.inl h
        · exact Or.inr ⟨j, List.mem_append_left _ hj, hjw⟩
      · rintro (h | ⟨j, hj, hjw⟩)
        · exact Or.inl h
        · rcases List.mem_append.mp hj with hh | hh
          · exact Or.inr ⟨j, hh, hjw⟩
          · rw [List.mem_singleton] at hh
            subst hh
            rw [hmat] at hjw
            exact absurd (Option.some.inj hjw).symm hww
  · intro i hi
    have hilen : i < L.length + 1 := by
      simpa using hi
    by_cases hiL : i < L.length
    · have hget := get_append_left_aux L j0 i hiL hi
      obtain ⟨w, hw, hcase⟩ := hP.parentStruct i hiL
      refine ⟨w, ?_, ?_⟩
      · have hne : L.get ⟨i, hiL⟩ ≠ j0 := by
          intro hc
          apply hj0notmem
          rw [← hc]
          exact List.get_mem L i hiL
        rw [h3p, hget, Function.update_noteq hne]
        exact hw
      · rcases hcase with h | ⟨k, hk, hki, hmk⟩
        · exact Or.inl h
        · have hk2 : k < (L ++ [j0]).length := by
            simp only [List.length_append, List.length_singleton]
            omega
          refine Or.inr ⟨k, hk2, hki, ?_⟩
          rw [h3wj, get_append_left_aux L j0 k hk hk2]
          exact hmk
    · have hieq : i = L.length := by omega
      subst hieq
      have hget := get_append_last_aux L j0 hi
      refine ⟨w0, ?_, ?_⟩
      · rw [h3p, hget, Function.update_same]
      · have hcom : s.committedWorkers w0 = true := by
          rw [hw0]
          exact hP.slackCommitted j0 hj0
        rcases (hP.commitIff w0).mp hcom with h | ⟨j, hj, hjw⟩
        · exact Or.inl h
        · obtain ⟨⟨k, hk⟩, hkeq⟩ := List.mem_iff_get.mp hj
          have hk2 : k < (L ++ [j0]).length := by
            simp only [List.length_append, List.length_singleton]
            omega
          refine Or.inr ⟨k, hk2, hk, ?_⟩
          rw [h3wj, get_append_left_aux L j0 k hk hk2, hkeq]
          exact hjw
  · intro j hjnone
    rw [h3p] at hjnone
    by_cases hj : j = j0
    · subst hj
      rw [Function.update_same] at hjnone
      exact Option.noConfusion hjnone
    · rw [Function.update_noteq hj] at hjnone
      have hold := hP.slackCommitted j hjnone
      rw [h3c]
      rcases h3m j with hmsw | hmsw
      · rw [hmsw]
        by_cases hwk : s.minSlackWorkerByJob j = worker
        · rw [hwk, Function.update_same]
        · rw [Function.update_noteq hwk]
          exact hold
      · rw [hmsw, Function.update_same]

/-- After committing job j0 with parent w0, the parent structure extends to
the list L ++ [j0]: the new job's parent worker was already committed. -/
theorem parentStruct_extend (root : Fin n) (s s2 : State n) (L : List (Fin n))
    (hP : PhaseInv root s L) (j0 w0 : Fin n)
    (hj0 : s.parentWorkerByCommittedJob j0 = none)
    (hw0 : w0 = s.minSlackWorkerByJob j0)
    (h2wj : s2.matchWorkerByJob = s.matchWorkerByJob)
    (h2p : s2.parentWorkerByCommittedJob =
      Function.update s.parentWorkerByCommittedJob j0 (some w0)) :
    ∀ i (hi : i < (L ++ [j0]).length), ∃ w,
      s2.parentWorkerByCommittedJob ((L ++ [j0]).get ⟨i, hi⟩) = some w ∧
      (w = root ∨ ∃ k, ∃ hk : k < (L ++ [j0]).length, k < i ∧
        s2.matchWorkerByJob ((L ++ [j0]).get ⟨k, hk⟩) = some w) := by
  have hj0notmem : j0 ∉ L := fun hc => (hP.parentIff j0).mpr hc hj0
  intro i hi
  have hilen : i < L.length + 1 := by
    simpa using hi
  by_cases hiL : i < L.length
  · have hget := get_append_left_aux L j0 i hiL hi
    obtain ⟨w, hw, hcase⟩ := hP.parentStruct i hiL
    refine ⟨w, ?_, ?_⟩
    · have hne : L.get ⟨i, hiL⟩ ≠ j0 := by
        intro hc
        apply hj0notmem
        rw [← hc]
        exact List.get_mem L i hiL
      rw [h2p, hget, Function.update_noteq hne]
      exact hw
    · rcases hcase with h | ⟨k, hk, hki, hmk⟩
      · exact Or.inl h
      · have hk2 : k < (L ++ [j0]).length := by
          simp only [List.length_append, List.length_singleton]
          omega
        refine Or.inr ⟨k, hk2, hki, ?_⟩
        rw [h2wj, get_append_left_aux L j0 k hk hk2]
        exact hmk
  · have hieq : i = L.length := by omega
    subst hieq
    have hget := get_append_last_aux L j0 hi
    refine ⟨w0, ?_, ?_⟩
    · rw [h2p, hget, Function.update_same]
    · have hcom : s.committedWorkers w0 = true := by
        rw [hw0]
        exact hP.slackCommitted j0 hj0
      rcases (hP.commitIff w0).mp hcom with h | ⟨j, hj, hjw⟩
      · exact Or.inl h
      · obtain ⟨⟨k, hk⟩, hkeq⟩ := List.mem_iff_get.mp hj
        have hk2 : k < (L ++ [j0]).length := by
          simp only [List.length_append, List.length_singleton]
          omega
        refine Or.inr ⟨k, hk2, hk, ?_⟩
        rw [h2wj, get_append_left_aux L j0 k hk hk2, hkeq]
        exact hjw

theorem condLabel_fields (v : ℚ) (s : State n) :
    ((if 0 < v then updateLabeling v s else s).matchJobByWorker = s.matchJobByWorker) ∧
    ((if 0 < v then updateLabeling v s else s).matchWorkerByJob = s.matchWorkerByJob) ∧
    ((if 0 < v then updateLabeling v s else s).parentWorkerByCommittedJob =
      s.parentWorkerByCommittedJob) ∧
    ((if 0 < v then updateLabeling v s else s).committedWorkers = s.committedWorkers) ∧
    ((if 0 < v then updateLabeling v s else s).minSlackWorkerByJob = s.minSlackWorkerByJob) := by
  split <;> exact ⟨rfl, rfl, rfl, rfl, rfl⟩

/-- The augmenting branch of an execute_phase iteration: when the committed
job j0 is unmatched, the walk terminates within fuel n+1 and produces a state
with the mutual-inverse property restored and exactly the root newly
matched. -/
theorem phaseAugment (root : Fin n) (s s2 : State n) (L : List (Fin n))
    (hP : PhaseInv root s L) (j0 w0 : Fin n)
    (hj0 : s.parentWorkerByCommittedJob j0 = none)
    (hw0 : w0 = s.minSlackWorkerByJob j0)
    (hunm : s.matchWorkerByJob j0 = none)
    (h2jw : s2.matchJobByWorker = s.matchJobByWorker)
    (h2wj : s2.matchWorkerByJob = s.matchWorkerByJob)
    (h2p : s2.parentWorkerByCommittedJob =
      Function.update s.parentWorkerByCommittedJob j0 (some w0)) :
    ∃ s4, walkAux (n + 1) s2 j0 = some s4 ∧ MutualInv s4 ∧
      ∀ w, (s4.matchJobByWorker w ≠ none ↔ (s.matchJobByWorker w ≠ none ∨ w = root)) := by
  have hj0notmem : j0 ∉ L := fun hc => (hP.parentIff j0).mpr hc hj0
  have hnd2 : (L ++ [j0]).Nodup := by
    rw [List.nodup_append]
    refine ⟨hP.nodup, List.nodup_singleton j0, ?_⟩
    intro a ha hmem
    rw [List.mem_singleton] at hmem
    exact hj0notmem (hmem ▸ ha)
  have hbij2 : MutualInv s2 := by
    intro w j
    rw [h2jw, h2wj]
    exact hP.inv w j
  have hrootun2 : s2.matchJobByWorker root = none := by
    rw [h2jw]
    exact hP.rootUn
  have hstruct := parentStruct_extend root s s2 L hP j0 w0 hj0 hw0 h2wj h2p
  have hlenlt : L.length < (L ++ [j0]).length := by
    simp
  obtain ⟨p, hp0, hfst, hpmem, hplast⟩ :=
    extractPath s2 root (L ++ [j0]) hbij2 hnd2 hstruct hrootun2 L.length hlenlt
  rw [get_append_last_aux L j0 hlenlt] at hp0
  have hsnd := hp0.snd_nodup hfst
  have hmie : MutualInvExcept s2 j0 := by
    constructor
    · intro w hc
      have h1 := (hbij2 w j0).mp hc
      rw [h2wj, hunm] at h1
      exact Option.noConfusion h1
    · intro w j _
      exact hbij2 w j
  have hlen : p.length ≤ n + 1 := by
    have h1 : (p.map Prod.fst).length ≤ n := by
      have := hfst.length_le_card
      simpa [Fintype.card_fin] using this
    rw [List.length_map] at h1
    omega
  have hwalk := walkAux_eq hp0 hsnd (n + 1) hlen
  obtain ⟨hinv4, hiff4⟩ := flipAlong_post hp0 hfst hsnd hmie hplast hrootun2
  refine ⟨flipAlong s2 p, hwalk, hinv4, ?_⟩
  intro w
  have := hiff4 w
  rw [h2jw] at this
  exact this

/-- Fuel n+1 always completes the execute_phase loop: every iteration either
augments (and the walk terminates) or commits one more job, and fewer than n
jobs can ever be committed. -/
theorem phaseLoop_ok : ∀ (fuel : ℕ) (s : State n) (root : Fin n) (L : List (Fin n)),
    PhaseInv root s L → n ≤ fuel + L.length →
    ∃ s4, phaseLoop fuel s = some s4 ∧ MutualInv s4 ∧
      ∀ w, (s4.matchJobByWorker w ≠ none ↔ (s.matchJobByWorker w ≠ none ∨ w = root)) := by
  intro fuel
  induction fuel with
  | zero =>
    intro s root L hP hle
    have := hP.length_lt
    omega
  | succ fuel ih =>
    intro s root L hP hle
    obtain ⟨juc, hjuc⟩ := hP.exists_uncommitted
    obtain ⟨⟨w0, j1, v⟩, hscan⟩ := scanMinSlack_isSome s juc hjuc
    obtain ⟨hj1, hw0, hv⟩ := scanMinSlack_props s w0 j1 v hscan
    have e1 := condLabel_fields v s
    have h2jw : (setParent j1 w0 (if 0 < v then updateLabeling v s else s)).matchJobByWorker =
        s.matchJobByWorker := by
      rw [setParent_matchJW]
      exact e1.1
    have h2wj : (setParent j1 w0 (if 0 < v then updateLabeling v s else s)).matchWorkerByJob =
        s.matchWorkerByJob := by
      rw [setParent_matchWJ]
      exact e1.2.1
    have h2p : (setParent j1 w0 (if 0 < v then updateLabeling v s else s)).parentWorkerByCommittedJob =
        Function.update s.parentWorkerByCommittedJob j1 (some w0) := by
      rw [setParent_parentW, e1.2.2.1]
    have h2c : (setParent j1 w0 (if 0 < v then updateLabeling v s else s)).committedWorkers =
        s.committedWorkers := by
      rw [setParent_committed]
      exact e1.2.2.2.1
    have h2m : (setParent j1 w0 (if 0 < v then updateLabeling v s else s)).minSlackWorkerByJob =
        s.minSlackWorkerByJob := by
      rw [setParent_msw]
      exact e1.2.2.2.2
    cases hm : (setParent j1 w0 (if 0 < v then updateLabeling v s else s)).matchWorkerByJob j1 with
    | none =>
      have hunm : s.matchWorkerByJob j1 = none := by
        rw [← h2wj]
        exact hm
      obtain ⟨s4, hwalk, hinv4, hiff4⟩ :=
        phaseAugment root s _ L hP j1 w0 hj1 hw0 hunm h2jw h2wj h2p
      refine ⟨s4, ?_, hinv4, hiff4⟩
      rw [phaseLoop]
      simp only [hscan, hm]
      exact hwalk
    | some worker =>
      have hmatS : s.matchWorkerByJob j1 = some worker := by
        rw [← h2wj]
        exact hm
      have f4 := updateSlacksFor_fields worker
        (commitWorker worker (setParent j1 w0 (if 0 < v then updateLabeling v s else s)))
      have h3jw : (updateSlacksFor worker (commitWorker worker
          (setParent j1 w0 (if 0 < v then updateLabeling v s else s)))).matchJobByWorker =
          s.matchJobByWorker := by
        rw [f4.1, commitWorker_matchJW]
        exact h2jw
      have h3wj : (updateSlacksFor worker (commitWorker worker
          (setParent j1 w0 (if 0 < v then updateLabeling v s else s)))).matchWorkerByJob =
          s.matchWorkerByJob := by
        rw [f4.2.1, commitWorker_matchWJ]
        exact h2wj
      have h3p : (updateSlacksFor worker (commitWorker worker
          (setParent j1 w0 (if 0 < v then updateLabeling v s else s)))).parentWorkerByCommittedJob =
          Function.update s.parentWorkerByCommittedJob j1 (some w0) := by
        rw [f4.2.2.1, commitWorker_parentW]
        exact h2p
      have h3c : (updateSlacksFor worker (commitWorker worker
          (setParent j1 w0 (if 0 < v then updateLabeling v s else s)))).committedWorkers =
          Function.update s.committedWorkers worker true := by
        rw [f4.2.2.2, commitWorker_committed, h2c]
      have h3m : ∀ j, (updateSlacksFor worker (commitWorker worker
          (setParent j1 w0 (if 0 < v then updateLabeling v s else s)))).minSlackWorkerByJob j =
          s.minSlackWorkerByJob j ∨
          (updateSlacksFor worker (commitWorker worker
          (setParent j1 w0 (if 0 < v then updateLabeling v s else s)))).minSlackWorkerByJob j =
          worker := by
        intro j
        rcases updateSlacksFor_msw worker
          (commitWorker worker (setParent j1 w0 (if 0 < v then updateLabeling v s else s))) j with
          h | h
        · rw [commitWorker_msw, h2m] at h
          exact Or.inl h
        · exact Or.inr h
      have hP3 := phaseInv_extend root s _ L hP j1 w0 worker hj1 hw0 hmatS h3jw h3wj h3p h3c h3m
      obtain ⟨s4, hrec, hinv4, hiff4⟩ := ih _ root (L ++ [j1]) hP3 (by
        simp only [List.length_append, List.length_singleton]
        omega)
      refine ⟨s4, ?_, hinv4, ?_⟩
      · rw [phaseLoop]
        simp only [hscan, hm]
        exact hrec
      · intro w
        have := hiff4 w
        rw [h3jw] at this
        exact this

theorem initializePhase_phaseInv (s : State n) (root : Fin n)
    (hinv : MutualInv s) (hroot : s.matchJobByWorker root = none) :
    PhaseInv root (initializePhase root s) [] := by
  constructor
  · exact fun w j => hinv w j
  · exact hroot
  · exact List.nodup_nil
  · intro j
    simp [initializePhase]
  · intro j hj
    cases hj
  · intro w
    show Function.update (fun _ => false) root true w = true ↔ _
    by_cases hw : w = root
    · subst hw
      simp
    · rw [Function.update_noteq hw]
      simp [hw]
  · intro i hi
    exact absurd hi (Nat.not_lt_zero i)
  · intro j _
    show Function.update (fun _ => false) root true root = true
    simp

/-- C3 core: a phase rooted at an unmatched worker completes with fuel n+1
and matches exactly that worker in addition to all previously matched ones. -/
theorem executePhase_ok (s : State n) (root : Fin n)
    (hinv : MutualInv s) (hroot : s.matchJobByWorker root = none) :
    ∃ s4, executePhase (initializePhase root s) = some s4 ∧ MutualInv s4 ∧
      matchedWorkers s4 = insert root (matchedWorkers s) ∧
      (matchedWorkers s4).card = (matchedWorkers s).card + 1 ∧
      ∀ w, s.matchJobByWorker w ≠ none → s4.matchJobByWorker w ≠ none := by
  obtain ⟨s4, hloop, hinv4, hiff⟩ := phaseLoop_ok (n + 1) (initializePhase root s) root []
    (initializePhase_phaseInv s root hinv hroot) (by simp)
  have hiff2 : ∀ w, s4.matchJobByWorker w ≠ none ↔
      (s.matchJobByWorker w ≠ none ∨ w = root) := hiff
  have hrootnm : root ∉ matchedWorkers s := by
    simp [matchedWorkers, hroot]
  have hset : matchedWorkers s4 = insert root (matchedWorkers s) := by
    ext w
    simp only [matchedWorkers, Finset.mem_filter, Finset.mem_univ, true_and,
      Finset.mem_insert]
    rw [hiff2 w]
    tauto
  refine ⟨s4, hloop, hinv4, hset, ?_, ?_⟩
  · rw [hset, Finset.card_insert_of_not_mem hrootnm]
  · intro w hw
    exact (hiff2 w).mpr (Or.inl hw)

theorem matchedWorkers_card_le (s : State n) : (matchedWorkers s).card ≤ n := by
  calc (matchedWorkers s).card ≤ Finset.univ.card := Finset.card_filter_le _ _
  _ = n := by simp

/-- C7 core: the main loop of execute() completes with fuel n+1, because each
phase adds one matched worker and at most n can ever be matched. -/
theorem mainLoop_ok : ∀ (fuel : ℕ) (s : State n), MutualInv s →
    n + 1 ≤ fuel + (matchedWorkers s).card →
    ∃ s4, mainLoop fuel s = some s4 ∧ MutualInv s4 ∧
      ∀ w, s4.matchJobByWorker w ≠ none := by
  intro fuel
  induction fuel with
  | zero =>
    intro s hinv hle
    have := matchedWorkers_card_le s
    omega
  | succ fuel ih =>
    intro s hinv hle
    cases hf : fetchUnmatchedWorker s with
    | none =>
      refine ⟨s, ?_, hinv, ?_⟩
      · rw [mainLoop]
        simp only [hf]
      · intro w hc
        have hall := List.find?_eq_none.mp hf w (List.mem_finRange w)
        rw [hc] at hall
        simp at hall
    | some root =>
      have hroot : s.matchJobByWorker root = none := by
        have h1 := List.find?_some hf
        simpa using h1
      obtain ⟨s4, h4, hinv4, _, hcard, _⟩ := executePhase_ok s root hinv hroot
      obtain ⟨s5, h5, hinv5, hall⟩ := ih s4 hinv4 (by rw [hcard]; omega)
      refine ⟨s5, ?_, hinv5, hall⟩
      rw [mainLoop]
      simp only [hf, h4]
      exact h5

theorem execute_pipeline_inv (rows cols : ℕ) (c : Fin rows → Fin cols → ℚ)
    (g : ScratchInit (max rows cols)) :
    MutualInv (greedyMatch (computeInitialFeasibleSolution (reduce (mkState rows cols c g)))) := by
  apply greedyMatch_mutualInv
  have h0 := mkState_mutualInv rows cols c g
  have h1 : MutualInv (reduce (mkState rows cols c g)) := by
    intro w j
    rw [reduce_matchJW, reduce_matchWJ]
    exact h0 w j
  intro w j
  rw [computeInitial_matchJW, computeInitial_matchWJ]
  exact h1 w j

/-- execute() always reaches a final state in which every worker of the
square working matrix is matched and the matching arrays are mutual
inverses. -/
theorem execute_total (rows cols : ℕ) (c : Fin rows → Fin cols → ℚ)
    (g : ScratchInit (max rows cols)) :
    ∃ s4, mainLoop (max rows cols + 1)
        (greedyMatch (computeInitialFeasibleSolution (reduce (mkState rows cols c g)))) =
          some s4 ∧
      MutualInv s4 ∧ ∀ w, s4.matchJobByWorker w ≠ none :=
  mainLoop_ok (max rows cols + 1) _ (execute_pipeline_inv rows cols c g) (by omega)

/-! ### The shape of the final matching -/

theorem final_bijection (s : State n) (hinv : MutualInv s)
    (hall : ∀ w, s.matchJobByWorker w ≠ none) :
    ∃ f : Fin n → Fin n, Function.Bijective f ∧
      ∀ w, s.matchJobByWorker w = some (f w) := by
  classical
  choose f hf using fun w => Option.ne_none_iff_exists.mp (hall w)
  have hinj : Function.Injective f := by
    intro w w2 hww
    have h1 : s.matchJobByWorker w = some (f w) := (hf w).symm
    have h2 : s.matchJobByWorker w2 = some (f w2) := (hf w2).symm
    rw [hww] at h1
    have e1 := (hinv w (f w2)).mp h1
    have e2 := (hinv w2 (f w2)).mp h2
    rw [e1] at e2
    exact Option.some.inj e2
  exact ⟨f, hinj.bijective_of_finite, fun w => (hf w).symm⟩

theorem count_none_add_filterMap (R : List (Option ℕ)) :
    R.count none + (R.filterMap id).length = R.length := by
  induction R with
  | nil => rfl
  | cons a rest ih =>
    cases a with
    | none =>
      have h1 : (none :: rest).count (none : Option ℕ) = rest.count none + 1 :=
        List.count_cons_self _ _
      have h2 : (none :: rest).filterMap id = rest.filterMap id := rfl
      rw [h1, h2, List.length_cons]
      omega
    | some x =>
      have h1 : (some x :: rest).count (none : Option ℕ) = rest.count none := by
        rw [List.count_cons]
        simp
      have h2 : (some x :: rest).filterMap id = x :: rest.filterMap id := rfl
      rw [h1, h2, List.length_cons, List.length_cons]
      omega

/-- The result list of execute() on the final state: length rows, assigned
jobs pairwise distinct and below cols; when cols <= rows every job below cols
is assigned; the count of UNASSIGNED entries is 0 when rows <= cols and
rows - cols when cols <= rows. -/
theorem execute_result_facts (rows cols : ℕ) (c : Fin rows → Fin cols → ℚ)
    (g : ScratchInit (max rows cols)) :
    ∃ R, execute rows cols c g = some R ∧ R.length = rows ∧
      (R.filterMap id).Nodup ∧
      (∀ j ∈ R.filterMap id, j < cols) ∧
      (cols ≤ rows → ∀ j0, j0 < cols → some j0 ∈ R) ∧
      (rows ≤ cols → R.count none = 0) ∧
      (cols ≤ rows → R.count none = rows - cols) := by
  classical
  obtain ⟨s4, h4, hinv4, hall4⟩ := execute_total rows cols c g
  obtain ⟨f, hbij, hf⟩ := final_bijection s4 hinv4 hall4
  set g0 : Fin rows → Option ℕ := fun w =>
    match s4.matchJobByWorker (Fin.castLE (Nat.le_max_left rows cols) w) with
    | none => none
    | some j => if j.val < cols then some j.val else none with hg0
  have hg0f : ∀ w, g0 w =
      if (f (Fin.castLE (Nat.le_max_left rows cols) w)).val < cols then
        some (f (Fin.castLE (Nat.le_max_left rows cols) w)).val else none := by
    intro w
    rw [hg0]
    simp only [hf (Fin.castLE (Nat.le_max_left rows cols) w)]
  set R := (List.finRange rows).map g0 with hR
  have hexec : execute rows cols c g = some R := by
    show (mainLoop (max rows cols + 1)
        (greedyMatch (computeInitialFeasibleSolution (reduce (mkState rows cols c g))))).map _ =
      some R
    rw [h4]
    rfl
  have hfm : R.filterMap id = (List.finRange rows).filterMap g0 := by
    rw [hR, List.filterMap_map]
    rfl
  have hmemchar : ∀ (w : Fin rows) (b : ℕ), g0 w = some b →
      (f (Fin.castLE (Nat.le_max_left rows cols) w)).val = b ∧ b < cols := by
    intro w b hb
    rw [hg0f w] at hb
    by_cases hc : (f (Fin.castLE (Nat.le_max_left rows cols) w)).val < cols
    · rw [if_pos hc] at hb
      exact ⟨Option.some.inj hb, (Option.some.inj hb) ▸ hc⟩
    · rw [if_neg hc] at hb
      exact Option.noConfusion hb
  refine ⟨R, hexec, by simp [hR], ?_, ?_, ?_, ?_, ?_⟩
  · -- nodup of the assigned jobs
    rw [hfm]
    refine List.Nodup.filterMap ?_ (List.nodup_finRange rows)
    intro a a2 b hb hb2
    rw [Option.mem_def] at hb hb2
    obtain ⟨hval, _⟩ := hmemchar a b hb
    obtain ⟨hval2, _⟩ := hmemchar a2 b hb2
    have hfeq : f (Fin.castLE (Nat.le_max_left rows cols) a) =
        f (Fin.castLE (Nat.le_max_left rows cols) a2) := by
      apply Fin.ext
      rw [hval, hval2]
    have := hbij.1 hfeq
    exact Fin.castLE_injective _ this
  · -- all assigned jobs below cols
    intro j hj
    rw [hfm] at hj
    obtain ⟨a, _, hb⟩ := List.mem_filterMap.mp hj
    exact (hmemchar a j hb).2
  · -- when cols <= rows, every job below cols is assigned
    intro hcr j0 hj0
    have hmaxr : max rows cols = rows := Nat.max_eq_left hcr
    have hj0m : j0 < max rows cols := by omega
    obtain ⟨w, hw⟩ := hbij.2 ⟨j0, hj0m⟩
    have hwlt : w.val < rows := by
      have := w.isLt
      omega
    have hcast : Fin.castLE (Nat.le_max_left rows cols) ⟨w.val, hwlt⟩ = w := by
      apply Fin.ext
      rfl
    rw [hR]
    refine List.mem_map.mpr ⟨⟨w.val, hwlt⟩, List.mem_finRange _, ?_⟩
    rw [hg0f, hcast, hw]
    simp [hj0]
  · -- rows <= cols: no UNASSIGNED entry
    intro hrc
    rw [List.count_eq_zero]
    intro hmem
    rw [hR] at hmem
    obtain ⟨w, _, hw⟩ := List.mem_map.mp hmem
    rw [hg0f w] at hw
    have hlt : (f (Fin.castLE (Nat.le_max_left rows cols) w)).val < cols := by
      have h1 := (f (Fin.castLE (Nat.le_max_left rows cols) w)).isLt
      have h2 : max rows cols = cols := Nat.max_eq_right hrc
      omega
    rw [if_pos hlt] at hw
    exact Option.noConfusion hw
  · -- cols <= rows: exactly rows - cols UNASSIGNED entries
    intro hcr
    have hlen : (R.filterMap id).length = cols := by
      have hnd : (R.filterMap id).Nodup := by
        rw [hfm]
        refine List.Nodup.filterMap ?_ (List.nodup_finRange rows)
        intro a a2 b hb hb2
        rw [Option.mem_def] at hb hb2
        obtain ⟨hval, _⟩ := hmemchar a b hb
        obtain ⟨hval2, _⟩ := hmemchar a2 b hb2
        have hfeq : f (Fin.castLE (Nat.le_max_left rows cols) a) =
            f (Fin.castLE (Nat.le_max_left rows cols) a2) := by
          apply Fin.ext
          rw [hval, hval2]
        exact Fin.castLE_injective _ (hbij.1 hfeq)
      have hsub : (R.filterMap id).toFinset = Finset.range cols := by
        ext j0
        rw [List.mem_toFinset, Finset.mem_range]
        constructor
        · intro hj
          rw [hfm] at hj
          obtain ⟨a, _, hb⟩ := List.mem_filterMap.mp hj
          exact (hmemchar a j0 hb).2
        · intro hj
          have hmaxr : max rows cols = rows := Nat.max_eq_left hcr
          have hj0m : j0 < max rows cols := by omega
          obtain ⟨w, hw⟩ := hbij.2 ⟨j0, hj0m⟩
          have hwlt : w.val < rows := by
            have := w.isLt
            omega
          have hcast : Fin.castLE (Nat.le_max_left rows cols) ⟨w.val, hwlt⟩ = w := by
            apply Fin.ext
            rfl
          refine List.mem_filterMap.mpr ⟨some j0, ?_, rfl⟩
          rw [hR]
          refine List.mem_map.mpr ⟨⟨w.val, hwlt⟩, List.mem_finRange _, ?_⟩
          rw [hg0f, hcast, hw]
          simp [hj]
      have := List.toFinset_card_of_nodup hnd
      rw [hsub, Finset.card_range] at this
      omega
    have hcount := count_none_add_filterMap R
    have hRlen : R.length = rows := by simp [hR]
    omega

/-! ### Concrete evaluations

Rat.add, Rat.sub and Rat.mul are irreducible by default; this section makes
them semireducible so the concrete runs below evaluate inside decide. -/

section ConcreteEvaluations

attribute [local semireducible] Rat.add Rat.sub Rat.mul

/-- The 2-by-2 cost matrix [[0,5],[5,0]] used against claim C1. -/
def cexMatrix : Fin 2 → Fin 2 → ℚ := ![![0, 5], ![5, 0]]

/-- The same matrix on raw indices, for cost accounting of result lists. -/
def cexCost : ℕ → ℕ → ℚ := fun w j =>
  if w = 0 then (if j = 0 then 0 else 5) else (if j = 0 then 5 else 0)

/-- Indeterminate heap contents in which the never-written label_by_worker
array happens to start as [5, 5]. -/
def cexScratch : ScratchInit 2 :=
  { ScratchInit.zero 2 with labelByWorker := ![5, 5] }

/-- C1: with the cost matrix [[0,5],[5,0]] and initial heap contents [5,5] in
the never-initialized label_by_worker array, execute() returns the assignment
[1,0] of total cost 10, while the valid assignment [0,1] costs 0: the returned
matching does not minimize the total cost.  (The boost variant, whose arrays
are value-initialized, corresponds to ScratchInit.zero and is not affected.) -/
theorem c1_uninitialized_labels_give_suboptimal_result :
    execute 2 2 cexMatrix cexScratch = some [some 1, some 0] ∧
    OkAssignment 2 [some 1, some 0] ∧
    OkAssignment 2 [some 0, some 1] ∧
    listCost cexCost 0 [some 1, some 0] = 10 ∧
    listCost cexCost 0 [some 0, some 1] = 0 ∧
    (∀ w j : Fin 2, cexCost w.val j.val = cexMatrix w j) ∧
    execute 2 2 cexMatrix (ScratchInit.zero 2) = some [some 0, some 1] := by
  refine ⟨by decide, ⟨by decide, by decide, by decide⟩, ⟨by decide, by decide, by decide⟩,
    by decide, by decide, by decide, by decide⟩

/-- Indeterminate heap contents in which label_by_worker starts as [1]. -/
def cexScratch2 : ScratchInit 1 :=
  { ScratchInit.zero 1 with labelByWorker := fun _ => 1 }

/-- C2: on the 1-by-1 matrix [[0]] with initial heap contents [1] in the
never-initialized label_by_worker array, dual feasibility is already violated
immediately after compute_initial_feasible_solution():
cost[0][0] - labelWorker[0] - labelJob[0] = -1 < 0. -/
theorem c2_feasibility_fails_after_initialization :
    edgeSlack
      (computeInitialFeasibleSolution (reduce (mkState 1 1 (fun _ _ => 0) cexScratch2)))
      ⟨0, by norm_num⟩ ⟨0, by norm_num⟩ < 0 := by
  decide

/-- Indeterminate heap contents in which label_by_worker starts as [3]. -/
def cexScratch5 : ScratchInit 1 :=
  { ScratchInit.zero 1 with labelByWorker := fun _ => 3 }

/-- C5: after compute_initial_feasible_solution() on the 1-by-1 matrix [[7]],
label_by_job[0] is the column minimum 0 of the reduced working matrix as
claimed, but label_by_worker[0] is whatever the heap held (here 3), not 0:
compute_initial_feasible_solution never writes label_by_worker, contradicting
its own documentation comment (assigning zero labels to the workers). -/
theorem c5_worker_labels_left_uninitialized :
    (computeInitialFeasibleSolution (reduce (mkState 1 1 (fun _ _ => 7) cexScratch5))).labelByWorker
        ⟨0, by norm_num⟩ = 3 ∧
    (3 : ℚ) ≠ 0 ∧
    (computeInitialFeasibleSolution (reduce (mkState 1 1 (fun _ _ => 7) cexScratch5))).labelByJob
        ⟨0, by norm_num⟩ = 0 := by
  refine ⟨by decide, by decide, by decide⟩

/-- C6 counterexample: an empty (0-row) input matrix is not rejected with any
invalid-argument signal; the constructor has no validation path at all, and
execute() runs to completion on the empty input, returning the empty result. -/
theorem c6_empty_input_accepted_and_run :
    execute 0 1 (fun _ _ => 0) (ScratchInit.zero 1) = some [] ∧
    (mkState 0 1 (fun _ _ => 0) (ScratchInit.zero 1)).cost
        ⟨0, by norm_num⟩ ⟨0, by norm_num⟩ = 0 := by
  refine ⟨by decide, by decide⟩

/-- The C8 trace on the matrix [[0,0],[0,100]] with zeroed scratch contents:
after reduce, the initial labeling and greedy_match (which pairs worker 0 with
job 0), worker 1 is unmatched and a phase is rooted at it. -/
def c8s0 : State 2 :=
  greedyMatch (computeInitialFeasibleSolution
    (reduce (mkState 2 2 ![![0, 0], ![0, 100]] (ScratchInit.zero 2))))

/-- The phase state after initialize_phase(1). -/
def c8s1 : State 2 := initializePhase 1 c8s0

/-- The state after the first execute_phase iteration: the scan selects job 0
with slack 0 achieved by worker 1, job 0 is committed, and its matched worker
0 is committed with the slacks refreshed. -/
def c8s2 : State 2 := updateSlacksFor 0 (commitWorker 0 (setParent 0 1 c8s1))

/-- The state in the second iteration after the scan selects the unmatched job
1 (slack 0, worker 0) and commits it: the augmenting walk starts here. -/
def c8s3 : State 2 := setParent 1 0 c8s2

/-- The state after the first match() call of the augmenting walk. -/
def c8mid : State 2 := recordMatch 0 1 c8s3

/-- C8 counterexample: the intermediate state reached inside the augmenting
walk of execute_phase violates the mutual-inverse property: after the walk's
first match(0, 1), match_job_by_worker[0] = 1 while match_worker_by_job[0]
still holds the stale value 0.  The conjuncts trace the exact execution path
of execute() on the matrix [[0,0],[0,100]] into this state. -/
theorem c8_mutual_inverse_broken_inside_walk :
    fetchUnmatchedWorker c8s0 = some 1 ∧
    scanMinSlack c8s1 = some (1, 0, 0) ∧
    (setParent 0 1 c8s1).matchWorkerByJob 0 = some 0 ∧
    scanMinSlack c8s2 = some (0, 1, 0) ∧
    c8s3.matchWorkerByJob 1 = none ∧
    walkStep c8s3 1 = some (Sum.inr (c8mid, 0)) ∧
    ¬ MutualInv c8mid ∧
    c8mid.matchJobByWorker 0 = some 1 ∧
    c8mid.matchWorkerByJob 0 = some 0 := by
  refine ⟨by decide, by decide, by decide, by decide, by decide, rfl, by decide,
    by decide, by decide⟩

end ConcreteEvaluations

/-- C6 amended, positive part: construction is total and performs no
validation whatever.  For every extent pair (including a malformed empty one)
it succeeds, produces the padded working matrix (the caller's block in the
top-left corner, zeros elsewhere) and clears both matching arrays; no
invalid-argument signal exists in the constructor. -/
theorem c6_construction_total_no_validation (rows cols : ℕ)
    (c : Fin rows → Fin cols → ℚ) (g : ScratchInit (max rows cols)) :
    (∀ w, (mkState rows cols c g).matchJobByWorker w = none) ∧
    (∀ j, (mkState rows cols c g).matchWorkerByJob j = none) ∧
    (∀ w j (hw : w.val < rows) (hj : j.val < cols),
        (mkState rows cols c g).cost w j = c ⟨w.val, hw⟩ ⟨j.val, hj⟩) ∧
    (∀ w j, rows ≤ w.val ∨ cols ≤ j.val → (mkState rows cols c g).cost w j = 0) := by
  refine ⟨fun w => rfl, fun j => rfl, ?_, ?_⟩
  · intro w j hw hj
    simp [mkState, hw, hj]
  · intro w j h
    rcases h with h | h
    · simp [mkState, Nat.not_lt.mpr h]
    · rcases Nat.lt_or_ge w.val rows with hw | hw
      · simp [mkState, hw, Nat.not_lt.mpr h]
      · simp [mkState, Nat.not_lt.mpr hw]

/-- Witness for the C6 amended theorem at a concrete well-formed input. -/
theorem c6_construction_witness :
    (mkState 1 1 (fun _ _ => (5 : ℚ)) (ScratchInit.zero 1)).cost
        ⟨0, Nat.zero_lt_one⟩ ⟨0, Nat.zero_lt_one⟩ = 5 := by
  have h := (c6_construction_total_no_validation 1 1 (fun _ _ => (5 : ℚ))
    (ScratchInit.zero 1)).2.2.1 ⟨0, Nat.zero_lt_one⟩ ⟨0, Nat.zero_lt_one⟩
    Nat.zero_lt_one Nat.zero_lt_one
  simpa using h

/-- C3: a completed phase (initialize_phase on an unmatched worker followed by
execute_phase) grows the matched set by exactly that worker: the matching size
increases by exactly one and every worker matched before stays matched. -/
theorem c3_phase_grows_matching_by_one (m : ℕ) (s : State m) (root : Fin m)
    (hinv : MutualInv s) (hroot : s.matchJobByWorker root = none) :
    ∃ s4, executePhase (initializePhase root s) = some s4 ∧
      matchedWorkers s4 = insert root (matchedWorkers s) ∧
      (matchedWorkers s4).card = (matchedWorkers s).card + 1 ∧
      ∀ w, s.matchJobByWorker w ≠ none → s4.matchJobByWorker w ≠ none := by
  obtain ⟨s4, h1, _, h3, h4, h5⟩ := executePhase_ok s root hinv hroot
  exact ⟨s4, h1, h3, h4, h5⟩

/-- Witness for C3 at the concrete state freshly constructed from [[0]]. -/
theorem c3_witness :
    ∃ s4, executePhase (initializePhase (⟨0, by norm_num⟩ : Fin (max 1 1))
        (mkState 1 1 (fun _ _ => 0) (ScratchInit.zero 1))) = some s4 ∧
      matchedWorkers s4 = insert (⟨0, by norm_num⟩ : Fin (max 1 1))
        (matchedWorkers (mkState 1 1 (fun _ _ => 0) (ScratchInit.zero 1))) ∧
      (matchedWorkers s4).card =
        (matchedWorkers (mkState 1 1 (fun _ _ => 0) (ScratchInit.zero 1))).card + 1 ∧
      ∀ w, (mkState 1 1 (fun _ _ => 0) (ScratchInit.zero 1)).matchJobByWorker w ≠ none →
        s4.matchJobByWorker w ≠ none :=
  c3_phase_grows_matching_by_one (max 1 1) (mkState 1 1 (fun _ _ => 0) (ScratchInit.zero 1))
    ⟨0, by norm_num⟩ (by decide) (by decide)

/-- C4: the shape of execute()'s result: length rows; no job index occurs
twice; all assigned indices are below cols; rows > cols leaves exactly
rows - cols workers UNASSIGNED; cols >= rows leaves none; rows = cols yields a
bijection (no UNASSIGNED, all jobs below cols assigned); cols > rows leaves
some job unused. -/
theorem c4_result_shape (rows cols : ℕ) (c : Fin rows → Fin cols → ℚ)
    (g : ScratchInit (max rows cols)) :
    ∃ R, execute rows cols c g = some R ∧ R.length = rows ∧
      (R.filterMap id).Nodup ∧
      (∀ j ∈ R.filterMap id, j < cols) ∧
      (rows > cols → R.count none = rows - cols) ∧
      (cols ≥ rows → R.count none = 0) ∧
      (rows = cols → R.count none = 0 ∧ ∀ j0, j0 < cols → some j0 ∈ R) ∧
      (cols > rows → ∃ j0, j0 < cols ∧ some j0 ∉ R) := by
  obtain ⟨R, h1, h2, h3, h4, h5, h6, h7⟩ := execute_result_facts rows cols c g
  refine ⟨R, h1, h2, h3, h4, ?_, ?_, ?_, ?_⟩
  · intro h
    exact h7 (by omega)
  · intro h
    exact h6 h
  · intro h
    exact ⟨h6 (by omega), h5 (by omega)⟩
  · intro hcr
    by_contra hcon
    push_neg at hcon
    have hsub : Finset.range cols ⊆ (R.filterMap id).toFinset := by
      intro j0 hj0
      rw [Finset.mem_range] at hj0
      rw [List.mem_toFinset]
      exact List.mem_filterMap.mpr ⟨some j0, hcon j0 hj0, rfl⟩
    have hb1 := Finset.card_le_card hsub
    rw [Finset.card_range] at hb1
    have hb2 := List.toFinset_card_le (R.filterMap id)
    have hb3 : (R.filterMap id).length ≤ R.length := List.length_filterMap_le id R
    omega

/-- Witness for C4 at rows = 2, cols = 1. -/
theorem c4_witness :
    ∃ R, execute 2 1 (fun _ _ => 0) (ScratchInit.zero 2) = some R ∧ R.length = 2 ∧
      (R.filterMap id).Nodup ∧
      (∀ j ∈ R.filterMap id, j < 1) ∧
      (2 > 1 → R.count none = 2 - 1) ∧
      (1 ≥ 2 → R.count none = 0) ∧
      (2 = 1 → R.count none = 0 ∧ ∀ j0, j0 < 1 → some j0 ∈ R) ∧
      (1 > 2 → ∃ j0, j0 < 1 ∧ some j0 ∉ R) :=
  c4_result_shape 2 1 (fun _ _ => 0) (ScratchInit.zero 2)

/-- C7: execute() terminates for every rectangular rational input and any
initial scratch contents: the main loop, the phase loop and the augmenting
walk each complete within fuel n+1 (proved by the loop lemmas), so the
fuelled embedding returns a result instead of exhausting fuel or reaching an
error branch. -/
theorem c7_execute_terminates (rows cols : ℕ) (c : Fin rows → Fin cols → ℚ)
    (g : ScratchInit (max rows cols)) :
    ∃ R, execute rows cols c g = some R ∧ R.length = rows := by
  obtain ⟨R, h1, h2, _⟩ := execute_result_facts rows cols c g
  exact ⟨R, h1, h2⟩

/-- C10: under the phase invariant (which holds at every iteration of every
phase), fewer than n jobs are committed, the minimum-slack scan returns an
actual (worker, job) pair rather than the UNASSIGNED sentinels, the selected
job is uncommitted and the selected worker is its recorded minimum-slack
worker; hence the sentinel is never used to index the phase arrays. -/
theorem c10_scan_never_yields_sentinel (m : ℕ) (root : Fin m) (s : State m)
    (L : List (Fin m)) (hP : PhaseInv root s L) :
    ∃ w0 j0 v, scanMinSlack s = some (w0, j0, v) ∧
      s.parentWorkerByCommittedJob j0 = none ∧
      w0 = s.minSlackWorkerByJob j0 ∧ L.length < m := by
  obtain ⟨juc, hjuc⟩ := hP.exists_uncommitted
  obtain ⟨⟨w0, j0, v⟩, hscan⟩ := scanMinSlack_isSome s juc hjuc
  obtain ⟨h1, h2, h3⟩ := scanMinSlack_props s w0 j0 v hscan
  exact ⟨w0, j0, v, hscan, h1, h2, hP.length_lt⟩

/-- Witness for C10 at the phase state rooted at worker 0 of the 1-by-1
instance. -/
theorem c10_witness :
    ∃ w0 j0 v, scanMinSlack (initializePhase (⟨0, by norm_num⟩ : Fin (max 1 1))
        (mkState 1 1 (fun _ _ => 0) (ScratchInit.zero 1))) = some (w0, j0, v) ∧
      (initializePhase (⟨0, by norm_num⟩ : Fin (max 1 1))
        (mkState 1 1 (fun _ _ => 0) (ScratchInit.zero 1))).parentWorkerByCommittedJob j0 =
        none ∧
      w0 = (initializePhase (⟨0, by norm_num⟩ : Fin (max 1 1))
        (mkState 1 1 (fun _ _ => 0) (ScratchInit.zero 1))).minSlackWorkerByJob j0 ∧
      ([] : List (Fin (max 1 1))).length < max 1 1 :=
  c10_scan_never_yields_sentinel (max 1 1) ⟨0, by norm_num⟩ _ []
    (initializePhase_phaseInv _ _ (by decide) (by decide))

/-- C8 (amended): the matching arrays are mutual inverses at every operation
boundary: after construction, and preserved by reduce,
compute_initial_feasible_solution, greedy_match, initialize_phase,
update_labeling, the job commit, the worker commit and the slack refresh
(none of which touch the matching arrays), and restored after every completed
phase.  Only inside the augmenting-path flip is the property transiently
violated (see the counterexample). -/
theorem c8_mutual_inverse_at_boundaries :
    (∀ rows cols (c : Fin rows → Fin cols → ℚ) g, MutualInv (mkState rows cols c g)) ∧
    (∀ m (s : State m), MutualInv s → MutualInv (reduce s)) ∧
    (∀ m (s : State m), MutualInv s → MutualInv (computeInitialFeasibleSolution s)) ∧
    (∀ m (s : State m), MutualInv s → MutualInv (greedyMatch s)) ∧
    (∀ m (s : State m) w, MutualInv s → MutualInv (initializePhase w s)) ∧
    (∀ m (s : State m) v, MutualInv s → MutualInv (updateLabeling v s)) ∧
    (∀ m (s : State m) j w, MutualInv s → MutualInv (setParent j w s)) ∧
    (∀ m (s : State m) w, MutualInv s → MutualInv (commitWorker w s)) ∧
    (∀ m (s : State m) w, MutualInv s → MutualInv (updateSlacksFor w s)) ∧
    (∀ m (s : State m) root, MutualInv s → s.matchJobByWorker root = none →
      ∃ s4, executePhase (initializePhase root s) = some s4 ∧ MutualInv s4) := by
  refine ⟨mkState_mutualInv, ?_, ?_, ?_, ?_, ?_, ?_, ?_, ?_, ?_⟩
  · intro m s h w j
    rw [reduce_matchJW, reduce_matchWJ]
    exact h w j
  · intro m s h w j
    exact h w j
  · intro m s h
    exact greedyMatch_mutualInv s h
  · intro m s w h w2 j2
    exact h w2 j2
  · intro m s v h w j
    exact h w j
  · intro m s j w h w2 j2
    exact h w2 j2
  · intro m s w h w2 j2
    exact h w2 j2
  · intro m s w h w2 j2
    have f4 := updateSlacksFor_fields w s
    rw [f4.1, f4.2.1]
    exact h w2 j2
  · intro m s root h hroot
    obtain ⟨s4, h1, h2, _⟩ := executePhase_ok s root h hroot
    exact ⟨s4, h1, h2⟩

/-- Witness for the C8 amended theorem at a concrete state. -/
theorem c8_boundaries_witness :
    MutualInv (reduce (mkState 1 1 (fun _ _ => (0 : ℚ)) (ScratchInit.zero 1))) :=
  c8_mutual_inverse_at_boundaries.2.1 (max 1 1)
    (mkState 1 1 (fun _ _ => (0 : ℚ)) (ScratchInit.zero 1)) (by decide)

end Hungarian
